import Mathlib

/-!
# A linked-list queue of strings (`queue.c`)

Shallow embedding of `queue.c`.

* A `char *` is modelled by the bytes it points to (`Str`); the first `0`
  byte, or the end of the list, terminates the string.
* A `list_ele_t *` is an `Option Nat`: `none` is `NULL`, `some a` the address `a`.
* The node store is a `Heap`: a partial map from addresses to nodes.  A free
  (never allocated, or freed) address maps to `none`.
* `malloc` is not deterministic: the result of each call is an argument of the
  operation that performs it.
* Reading or writing through `NULL` or through a free address, writing outside
  a buffer, and running a loop out of fuel all yield `none`.
* `int` arithmetic is modelled on `Int` (no overflow: sizes stay far below
  `2^31`); `size_t` arithmetic wraps modulo `2^64`.
-/

namespace Queue

/-- Bytes of a `char` block. -/
abbrev Str := List Nat

/-- Linked list element (`list_ele_t`): the owned value block and the next link. -/
structure list_ele_t where
  value : Str
  next : Option Nat
deriving DecidableEq, Repr

/-- Queue structure (`queue_t`). -/
structure queue_t where
  head : Option Nat
  tail : Option Nat
  size : Int
deriving DecidableEq, Repr

/-- Node store: address to node, `none` for a free address. -/
abbrev Heap := Nat → Option list_ele_t

/-- The store with no node allocated. -/
def emptyHeap : Heap := fun _ => none

/-- Store `e` at address `a`. -/
def Heap.write (h : Heap) (a : Nat) (e : list_ele_t) : Heap :=
  fun b => if b = a then some e else h b

/-- Release address `a` (`free`). -/
def Heap.free (h : Heap) (a : Nat) : Heap :=
  fun b => if b = a then none else h b

/-- Read `p->next`. -/
def getNext (h : Heap) (p : Option Nat) : Option (Option Nat) :=
  match p with
  | none => none
  | some a => (h a).map (fun e => e.next)

/-- Read `p->value`. -/
def getValue (h : Heap) (p : Option Nat) : Option Str :=
  match p with
  | none => none
  | some a => (h a).map (fun e => e.value)

/-- Write `p->next = q`. -/
def setNext (h : Heap) (p : Option Nat) (q : Option Nat) : Option Heap :=
  match p with
  | none => none
  | some a =>
    match h a with
    | none => none
    | some e => some (h.write a { e with next := q })

/-! ## String primitives -/

/-- The string held in a block: the bytes before the first `0`. -/
def cstr (s : Str) : Str := s.takeWhile (fun b => b ≠ 0)

/-- Length of the string held in a block (`strlen`). -/
def strlen (s : Str) : Nat := (cstr s).length

/-- Copy with `strncpy(dst, src, n)`: exactly `n` bytes of `dst` are written, the
bytes of the string `src` first and `0` bytes after them.  Fails when `dst` has
fewer than `n` bytes. -/
def strncpy (dst src : Str) (n : Nat) : Option Str :=
  if n ≤ dst.length then
    some ((List.range n).map (fun i => if i < strlen src then src.getD i 0 else 0) ++ dst.drop n)
  else none

/-- Byte-wise comparison (`strcmp`): the difference of the first pair of bytes
that differ, `0` when both strings end together. -/
def strcmp : Str → Str → Int
  | [], [] => 0
  | [], b :: _ => 0 - (b : Int)
  | a :: _, [] => (a : Int) - 0
  | a :: as, b :: bs =>
    if a ≠ b then (a : Int) - (b : Int) else if a = 0 then 0 else strcmp as bs

/-- Comparison used by the sort (`cmp`). -/
def cmp (s1 s2 : Str) : Int := strcmp s1 s2

/-! ## Queue operations -/

/-- Create an empty queue (`q_new`); `ok` tells whether `malloc` succeeded.
The result is the queue pointer: `none` is `NULL`. -/
def q_new (ok : Bool) : Option queue_t :=
  if ok then some { head := none, tail := none, size := 0 } else none

/-- Number of elements (`q_size`), `0` for a `NULL` queue. -/
def q_size (q : Option queue_t) : Int :=
  match q with
  | none => 0
  | some q => q.size

/-- Insert at the head (`q_insert_head`).  Argument `newh` is the result of the
`malloc` of the node, `valOk` tells whether the `malloc` of the value block
succeeded. -/
def q_insert_head (h : Heap) (q : Option queue_t) (s : Str) (newh : Option Nat) (valOk : Bool) :
    Option (Bool × Heap × Option queue_t) :=
  match q with
  | none => some (false, h, none)
  | some q =>
    match newh with
    | none => some (false, h, some q)
    | some a =>
      let h0 := h.write a { value := [], next := none }
      if ¬ valOk then some (false, h0.free a, some q)
      else do
        let v ← strncpy (List.replicate (strlen s + 1) 0) s (strlen s + 1)
        let h1 := h0.write a { value := v, next := q.head }
        let q1 := if q.size = 0 then { q with tail := some a } else q
        let q2 := { q1 with head := some a }
        some (true, h1, some { q2 with size := q2.size + 1 })

/-- Insert at the tail (`q_insert_tail`).  Arguments `newh` and `valOk` as for
`q_insert_head`. -/
def q_insert_tail (h : Heap) (q : Option queue_t) (s : Str) (newh : Option Nat) (valOk : Bool) :
    Option (Bool × Heap × Option queue_t) :=
  match q with
  | none => some (false, h, none)
  | some q =>
    match newh with
    | none => some (false, h, some q)
    | some a =>
      let h0 := h.write a { value := [], next := none }
      if ¬ valOk then some (false, h0.free a, some q)
      else do
        let v ← strncpy (List.replicate (strlen s + 1) 0) s (strlen s + 1)
        let h1 := h0.write a { value := v, next := none }
        if q.size = 0 then
          some (true, h1, some { head := some a, tail := some a, size := q.size + 1 })
        else do
          let h2 ← setNext h1 q.tail (some a)
          some (true, h2, some { q with tail := some a, size := q.size + 1 })

/-- Store `sp[i] = b` where `i` is a `size_t`. -/
def setByte (sp : Str) (i : Nat) (b : Nat) : Option Str :=
  if i < sp.length then some (sp.set i b) else none

/-- Remove the head (`q_remove_head`).  Argument `sp` is the output buffer
(`none` for `NULL`), given by the bytes of the memory it points to. -/
def q_remove_head (h : Heap) (q : Option queue_t) (sp : Option Str) (bufsize : Nat) :
    Option (Bool × Heap × Option queue_t × Option Str) :=
  if q_size q = 0 then some (false, h, q, sp)
  else
    match q with
    | none => none
    | some q => do
      let sp1 ← match sp with
        | none => some none
        | some buf => do
          let v ← getValue h q.head
          let b1 ← strncpy buf v bufsize
          let b2 ← setByte b1 ((bufsize + 2 ^ 64 - 1) % 2 ^ 64) 0
          some (some b2)
      let del ← q.head
      let nxt ← getNext h q.head
      let q1 := { q with head := nxt }
      let _ ← h del
      let h1 := h.free del
      some (true, h1, some { q1 with size := q1.size - 1 }, sp1)

/-- The `while (next != NULL)` loop of `q_reverse`, on `(cur, next)`. -/
def reverse_loop : Nat → Heap → Option Nat → Option Nat → Option (Heap × Option Nat)
  | _, h, cur, none => some (h, cur)
  | 0, _, _, some _ => none
  | fuel + 1, h, cur, some n => do
    let tmp ← getNext h (some n)
    let h1 ← setNext h (some n) cur
    reverse_loop fuel h1 (some n) tmp

/-- Reverse the queue in place (`q_reverse`). -/
def q_reverse (fuel : Nat) (h : Heap) (q : Option queue_t) : Option (Heap × Option queue_t) :=
  if q_size q = 0 then some (h, q)
  else
    match q with
    | none => none
    | some q => do
      let cur := q.head
      let next ← getNext h cur
      let q1 := { q with tail := cur }
      let h1 ← setNext h cur none
      let (h2, cur2) ← reverse_loop fuel h1 cur next
      some (h2, some { q1 with head := cur2 })

/-- The loop `for (i = Ln; i <= M; i++) { prev = mid; mid = mid->next; }` of
`merge_sort`, run for its `n` iterations on `(prev, mid)`. -/
def split_walk (h : Heap) : Nat → Option Nat → Option Nat → Option (Option Nat × Option Nat)
  | 0, prev, mid => some (prev, mid)
  | n + 1, _, mid => do
    let nxt ← getNext h mid
    split_walk h n mid nxt

/-- The loop `while (start && mid)` of `merge_sort`, on `(merged, start, mid)`. -/
def merge_loop : Nat → Heap → Option Nat → Option Nat → Option Nat →
    Option (Heap × Option Nat × Option Nat × Option Nat)
  | _, h, merged, none, mid => some (h, merged, none, mid)
  | _, h, merged, some s, none => some (h, merged, some s, none)
  | 0, _, _, some _, some _ => none
  | fuel + 1, h, merged, some s, some m => do
    let vs ← getValue h (some s)
    let vm ← getValue h (some m)
    if cmp vs vm > 0 then do
      let h1 ← setNext h merged (some m)
      let merged1 ← getNext h1 merged
      let mid1 ← getNext h1 (some m)
      merge_loop fuel h1 merged1 (some s) mid1
    else do
      let h1 ← setNext h merged (some s)
      let merged1 ← getNext h1 merged
      let start1 ← getNext h1 (some s)
      merge_loop fuel h1 merged1 start1 (some m)

/-- The loop `while (start && mid)` of `merge_sort` followed by the two splices
`if (start) merged->next = start; if (mid) merged->next = mid;`. -/
def merge_rest (fuel : Nat) (h : Heap) (merged start mid : Option Nat) : Option Heap := do
  let (h1, merged2, start2, mid2) ← merge_loop fuel h merged start mid
  let h2 ← if start2.isSome then setNext h1 merged2 start2 else some h1
  let h3 ← if mid2.isSome then setNext h2 merged2 mid2 else some h2
  some h3

/-- The merge of two sorted chains, lines 198 to 227 of `merge_sort`. -/
def merge_phase (fuel : Nat) (h : Heap) (start mid : Option Nat) : Option (Heap × Option Nat) := do
  let vs ← getValue h start
  let vm ← getValue h mid
  let (merged, start1, mid1) ←
    if cmp vs vm > 0 then do
      let nxt ← getNext h mid
      some (mid, start, nxt)
    else do
      let nxt ← getNext h start
      some (start, nxt, mid)
  let head := merged
  let h3 ← merge_rest fuel h merged start1 mid1
  some (h3, head)

/-- Sort the chain of nodes numbered `Ln` to `Rn` that starts at `start`
(`merge_sort`); the result is the new store and the head of the sorted chain. -/
def merge_sort : Nat → Heap → Option Nat → Int → Int → Option (Heap × Option Nat)
  | 0, h, start, Ln, Rn => if Rn ≤ Ln then some (h, start) else none
  | fuel + 1, h, start, Ln, Rn =>
    if Rn ≤ Ln then some (h, start)
    else do
      let M := (Ln + Rn).tdiv 2
      let (prev, mid) ← split_walk h (M + 1 - Ln).toNat start start
      let h1 ← setNext h prev none
      let (h2, start2) ← merge_sort fuel h1 start Ln M
      let (h3, mid2) ← merge_sort fuel h2 mid (M + 1) Rn
      merge_phase fuel h3 start2 mid2

/-- The loop `for (i = 0; i < q->size - 1; i++) node = node->next;` of `q_sort`,
run for its `n` iterations. -/
def tail_walk (h : Heap) : Nat → Option Nat → Option (Option Nat)
  | 0, node => some node
  | n + 1, node => do
    let nxt ← getNext h node
    tail_walk h n nxt

/-- Sort the queue in ascending order (`q_sort`). -/
def q_sort (fuel : Nat) (h : Heap) (q : Option queue_t) : Option (Heap × Option queue_t) :=
  if q_size q = 0 then some (h, q)
  else
    match q with
    | none => none
    | some q => do
      let (h1, node) ← merge_sort fuel h q.head 0 (q.size - 1)
      let q1 := { q with head := node }
      let node1 ← tail_walk h1 (q1.size - 1).toNat node
      some (h1, some { q1 with tail := node1 })

/-- The loop `while (q->head)` of `q_free`, on `q->head`: each iteration
releases the head node (with its value block) and moves to the next one. -/
def free_loop : Nat → Heap → Option Nat → Option Heap
  | _, h, none => some h
  | 0, _, some _ => none
  | fuel + 1, h, some a => do
    let nxt ← getNext h (some a)
    let _ ← h a
    free_loop fuel (h.free a) nxt

/-- Free all storage used by the queue (`q_free`); the result is the store
left. -/
def q_free (fuel : Nat) (h : Heap) (q : Option queue_t) : Option Heap :=
  match q with
  | none => some h
  | some q => free_loop fuel h q.head

/-- The output buffer handed to `q_remove_head` is usable: no buffer at all, or a
buffer that really has `bufsize > 0` bytes, `bufsize` being a `size_t`. -/
def BufferOk (sp : Option Str) (bufsize : Nat) : Prop :=
  match sp with
  | none => True
  | some buf => 0 < bufsize ∧ bufsize ≤ buf.length ∧ bufsize < 2 ^ 64

/-! ## Sequences of calls -/

/-- One insertion call: where to insert, the string, and the outcomes of the two
`malloc` calls. -/
inductive InsertCall where
  | atHead (s : Str) (newh : Option Nat) (valOk : Bool)
  | atTail (s : Str) (newh : Option Nat) (valOk : Bool)

/-- Perform one insertion call. -/
def InsertCall.run (h : Heap) (q : Option queue_t) :
    InsertCall → Option (Bool × Heap × Option queue_t)
  | .atHead s newh valOk => q_insert_head h q s newh valOk
  | .atTail s newh valOk => q_insert_tail h q s newh valOk

/-- Perform the insertion calls in order and collect the values they return. -/
def runInserts (h : Heap) (q : Option queue_t) :
    List InsertCall → Option (List Bool × Heap × Option queue_t)
  | [] => some ([], h, q)
  | c :: cs => do
    let (r, h1, q1) ← c.run h q
    let (rs, h2, q2) ← runInserts h1 q1 cs
    some (r :: rs, h2, q2)

/-! ## Reading a queue -/

/-- The values met on at most `n` nodes from `p`, following next links. -/
def toList (h : Heap) : Nat → Option Nat → List Str
  | 0, _ => []
  | _ + 1, none => []
  | n + 1, some a =>
    match h a with
    | none => []
    | some e => e.value :: toList h n e.next

/-- The values of the queue read head to tail, as blocks. -/
def contents (h : Heap) (q : queue_t) : List Str := toList h q.size.toNat q.head

/-- The values of the queue read head to tail, as strings. -/
def strings (h : Heap) (q : queue_t) : List Str := (contents h q).map cstr

/-- Text as bytes. -/
def bytes (s : String) : Str := s.toList.map Char.toNat

/-! ## Well-formed queues -/

/-- Segment `Seg h p as q`: from `p` the next links visit exactly the nodes `as`,
in order, and the link of the last one is `q` (for no node, `p` is `q`). -/
def Seg (h : Heap) : Option Nat → List Nat → Option Nat → Prop
  | p, [], q => p = q
  | p, a :: as, q => p = some a ∧ ∃ e, h a = some e ∧ Seg h e.next as q

/-- Chain `Chain h p as`: from `p` the next links visit exactly the nodes `as` and
then reach `NULL`. -/
def Chain (h : Heap) (p : Option Nat) (as : List Nat) : Prop := Seg h p as none

/-- The value stored at address `a` (the empty block at a free address). -/
def valOf (h : Heap) (a : Nat) : Str :=
  match h a with
  | none => []
  | some e => e.value

/-- The chain of `q` is made of the nodes `as`: a chain of exactly `q.size` nodes
from `q.head`. -/
def Linked (h : Heap) (q : queue_t) (as : List Nat) : Prop :=
  Chain h q.head as ∧ (as.length : Int) = q.size

/-- Well-formed queue: a chain of exactly `size` nodes from `head`, and when
there is a node, `tail` is the last one. -/
def WellFormed (h : Heap) (q : queue_t) : Prop :=
  ∃ as, Linked h q as ∧ (as ≠ [] → q.tail = as.getLast?)

/-- The states reachable from `q_new` by calls of `q_insert_head`,
`q_insert_tail`, `q_remove_head`, `q_reverse` and `q_sort` that return.  The store
at creation is any store; a `malloc` of a node returns `NULL` or a free address. -/
inductive Reachable : Heap → queue_t → Prop
  | new (h : Heap) (q : queue_t) : q_new true = some q → Reachable h q
  | insert_head {h : Heap} {q : queue_t} (s : Str) (newh : Option Nat) (valOk r : Bool)
      (h' : Heap) (q' : queue_t) : Reachable h q → (∀ a, newh = some a → h a = none) →
      q_insert_head h (some q) s newh valOk = some (r, h', some q') → Reachable h' q'
  | insert_tail {h : Heap} {q : queue_t} (s : Str) (newh : Option Nat) (valOk r : Bool)
      (h' : Heap) (q' : queue_t) : Reachable h q → (∀ a, newh = some a → h a = none) →
      q_insert_tail h (some q) s newh valOk = some (r, h', some q') → Reachable h' q'
  | remove_head {h : Heap} {q : queue_t} (sp : Option Str) (bufsize : Nat) (r : Bool)
      (h' : Heap) (q' : queue_t) (sp' : Option Str) : Reachable h q →
      q_remove_head h (some q) sp bufsize = some (r, h', some q', sp') → Reachable h' q'
  | reverse {h : Heap} {q : queue_t} (fuel : Nat) (h' : Heap) (q' : queue_t) : Reachable h q →
      q_reverse fuel h (some q) = some (h', some q') → Reachable h' q'
  | sort {h : Heap} {q : queue_t} (fuel : Nat) (h' : Heap) (q' : queue_t) : Reachable h q →
      q_sort fuel h (some q) = some (h', some q') → Reachable h' q'

/-- Two stores hold the same values at the same addresses. -/
def SameVals (h h' : Heap) : Prop :=
  ∀ a, (h' a).map (fun e => e.value) = (h a).map (fun e => e.value)

/-- Example store: node `3` holds "c", node `1` holds "b", node `2` holds "a",
linked `3 → 1 → 2`. -/
def exHeap : Heap :=
  ((emptyHeap.write 2 { value := [97, 0], next := none }).write 1
    { value := [98, 0], next := some 2 }).write 3 { value := [99, 0], next := some 1 }

/-- Example queue on `exHeap`: the chain `3 → 1 → 2`. -/
def exQueue : queue_t := { head := some 3, tail := some 2, size := 3 }

/-- The merge of `merge_sort` on lists: the right head is taken only when the
left head compares greater. -/
def mergeL {α : Type} (v : α → Str) : List α → List α → List α
  | [], ys => ys
  | x :: xs, [] => x :: xs
  | x :: xs, y :: ys =>
    if cmp (v x) (v y) > 0 then y :: mergeL v (x :: xs) ys
    else x :: mergeL v xs (y :: ys)
termination_by xs ys => xs.length + ys.length

/-- The recursion of `merge_sort` on lists: cut after the first `(n + 1) / 2` of
`n ≥ 2` elements, sort both parts, merge. -/
def msortL {α : Type} (v : α → Str) : Nat → List α → List α
  | 0, l => l
  | fuel + 1, l =>
    if l.length ≤ 1 then l
    else mergeL v (msortL v fuel (l.take ((l.length + 1) / 2)))
      (msortL v fuel (l.drop ((l.length + 1) / 2)))

theorem cstr_ne_zero (s : Str) : ∀ b ∈ cstr s, b ≠ 0 := by
  intro b hb
  have := List.mem_takeWhile_imp hb
  simpa using this

theorem cstr_append_zero : ∀ (p rest : Str), (∀ b ∈ p, b ≠ 0) → cstr (p ++ 0 :: rest) = p
  | [], rest, _ => by simp [cstr, List.takeWhile]
  | a :: p, rest, hp => by
    have ha : a ≠ 0 := hp a (List.mem_cons_self _ _)
    have ih := cstr_append_zero p rest (fun b hb => hp b (List.mem_cons_of_mem _ hb))
    unfold cstr at ih ⊢
    rw [List.cons_append, List.takeWhile_cons, if_pos (by simpa using ha), ih]

theorem cstr_getD (s : Str) (i : Nat) (hi : i < strlen s) :
    s.getD i 0 = (cstr s)[i] := by
  have hpre : cstr s <+: s := List.takeWhile_prefix _
  have hlt : i < s.length := lt_of_lt_of_le hi hpre.length_le
  rw [List.getD_eq_getElem?_getD, List.getElem?_eq_getElem hlt]
  exact (hpre.getElem hi).symm

/-- The bytes written by `strncpy(dst, src, k)`: the first `k` bytes of the
string, then zeros. -/
theorem copied_bytes (src : Str) : ∀ k : Nat,
    (List.range k).map (fun i => if i < strlen src then src.getD i 0 else 0) =
      (cstr src).take k ++ List.replicate (k - strlen src) 0
  | 0 => by simp
  | k + 1 => by
    rw [List.range_succ, List.map_append, copied_bytes src k]
    by_cases hk : k < strlen src
    · have h1 : k - strlen src = 0 := by omega
      have h2 : k + 1 - strlen src = 0 := by omega
      have hk' : k < (cstr src).length := hk
      simp only [h1, h2, List.replicate_zero, List.append_nil, List.map_cons, hk, ↓reduceIte,
        List.map_nil]
      rw [List.take_succ, List.getElem?_eq_getElem hk', cstr_getD src k hk]
      rfl
    · have h1 : k + 1 - strlen src = (k - strlen src) + 1 := by omega
      have hlen : (cstr src).length ≤ k := by unfold strlen at hk; omega
      simp only [h1, List.map_cons, hk, ↓reduceIte, List.map_nil, List.replicate_succ']
      rw [List.take_of_length_le hlen, List.take_of_length_le (by omega), List.append_assoc]

/-- The block made by `malloc(strlen(s) + 1)` and `strncpy`: the string and its
terminator. -/
theorem strncpy_alloc (s : Str) :
    strncpy (List.replicate (strlen s + 1) 0) s (strlen s + 1) = some (cstr s ++ [0]) := by
  unfold strncpy
  rw [if_pos (by simp), copied_bytes]
  have hlen : (cstr s).length ≤ strlen s + 1 := by unfold strlen; omega
  simp [List.take_of_length_le hlen]

theorem set_middle : ∀ (A D : Str) (x y : Nat), (A ++ x :: D).set A.length y = A ++ y :: D
  | [], D, x, y => by simp
  | a :: A, D, x, y => by simp [set_middle A D x y]

/-- The buffer after `strncpy(sp, v, C); sp[C - 1] = 0`. -/
theorem copy_out (buf v : Str) (C : Nat) (hC : 0 < C) (hcap : C ≤ buf.length)
    (h64 : C < 2 ^ 64) :
    (strncpy buf v C).bind (fun b1 => setByte b1 ((C + 2 ^ 64 - 1) % 2 ^ 64) 0) =
      some ((cstr v).take (C - 1) ++ List.replicate (C - 1 - strlen v + 1) 0 ++ buf.drop C) := by
  obtain ⟨k, rfl⟩ : ∃ k, C = k + 1 := ⟨C - 1, by omega⟩
  have hidx : (k + 1 + 2 ^ 64 - 1) % 2 ^ 64 = k := by omega
  unfold strncpy
  rw [if_pos hcap, hidx, List.range_succ, List.map_append, copied_bytes]
  simp only [Option.some_bind, List.map_cons, List.map_nil, List.append_assoc,
    List.singleton_append, Nat.add_sub_cancel]
  have hlenA : ((cstr v).take k ++ List.replicate (k - strlen v) 0).length = k := by
    simp only [List.length_append, List.length_take, List.length_replicate]
    unfold strlen; omega
  unfold setByte
  rw [if_pos (by
    simp only [List.length_append, List.length_take, List.length_replicate, List.length_cons,
      List.length_drop]
    unfold strlen; omega)]
  have := set_middle ((cstr v).take k ++ List.replicate (k - strlen v) 0) (buf.drop (k + 1))
    (if k < strlen v then v.getD k 0 else 0) 0
  rw [hlenA] at this
  simp only [List.append_assoc] at this
  rw [this, List.replicate_succ']
  simp

/-! ## Comparison -/

section ListSort

variable {α : Type} (v : α → Str)

theorem mergeL_perm : ∀ xs ys : List α, (mergeL v xs ys).Perm (xs ++ ys)
  | [], ys => by simp [mergeL]
  | x :: xs, [] => by simp [mergeL]
  | x :: xs, y :: ys => by
    rw [mergeL]
    split
    · have ih := mergeL_perm (x :: xs) ys
      exact ((List.Perm.cons y ih).trans (List.perm_middle.symm))
    · have ih := mergeL_perm xs (y :: ys)
      exact List.Perm.cons x ih
termination_by xs ys => xs.length + ys.length

theorem msortL_perm : ∀ (fuel : Nat) (l : List α), (msortL v fuel l).Perm l
  | 0, l => by simp [msortL]
  | fuel + 1, l => by
    rw [msortL]
    split
    · exact List.Perm.refl _
    · refine (mergeL_perm v _ _).trans ?_
      refine ((msortL_perm fuel _).append (msortL_perm fuel _)).trans ?_
      rw [List.take_append_drop]

theorem msortL_length (fuel : Nat) (l : List α) : (msortL v fuel l).length = l.length :=
  (msortL_perm v fuel l).length_eq

end ListSort

/-! ## Chains -/

theorem seg_frame {h h' : Heap} {as : List Nat} :
    ∀ {p q : Option Nat}, (∀ a ∈ as, h' a = h a) → Seg h p as q → Seg h' p as q := by
  induction as with
  | nil => intro p q _ hs; exact hs
  | cons a as ih =>
    intro p q hf hs
    obtain ⟨hp, e, he, hrest⟩ := hs
    refine ⟨hp, e, ?_, ih (fun b hb => hf b (List.mem_cons_of_mem _ hb)) hrest⟩
    rw [hf a (List.mem_cons_self _ _)]; exact he

theorem seg_append {h : Heap} {l r : List Nat} :
    ∀ {p q : Option Nat}, Seg h p (l ++ r) q ↔ ∃ m, Seg h p l m ∧ Seg h m r q := by
  induction l with
  | nil =>
    intro p q
    constructor
    · intro hs; exact ⟨p, rfl, hs⟩
    · rintro ⟨m, hm, hs⟩
      have : p = m := hm
      subst this; exact hs
  | cons a l ih =>
    intro p q
    constructor
    · rintro ⟨hp, e, he, hrest⟩
      obtain ⟨m, h1, h2⟩ := ih.mp hrest
      exact ⟨m, ⟨hp, e, he, h1⟩, h2⟩
    · rintro ⟨m, ⟨hp, e, he, h1⟩, h2⟩
      exact ⟨hp, e, he, ih.mpr ⟨m, h1, h2⟩⟩

theorem chain_unique {h : Heap} {l1 : List Nat} :
    ∀ {p : Option Nat} {l2 : List Nat}, Chain h p l1 → Chain h p l2 → l1 = l2 := by
  induction l1 with
  | nil =>
    intro p l2 h1 h2
    have hp : p = none := h1
    subst hp
    cases l2 with
    | nil => rfl
    | cons b l2 => exact absurd h2.1 (by simp)
  | cons a l1 ih =>
    intro p l2 h1 h2
    obtain ⟨hp, e, he, hrest⟩ := h1
    subst hp
    cases l2 with
    | nil => exact absurd (show some a = none from h2) (by simp)
    | cons b l2 =>
      obtain ⟨hp2, e2, he2, hrest2⟩ := h2
      have hab : a = b := Option.some.inj hp2
      subst hab
      rw [he] at he2
      have hee : e = e2 := Option.some.inj he2
      subst hee
      rw [ih hrest hrest2]

theorem chain_nodup {h : Heap} {as : List Nat} :
    ∀ {p : Option Nat}, Chain h p as → as.Nodup := by
  induction as with
  | nil => intro _ _; exact List.nodup_nil
  | cons a as ih =>
    intro p hc
    obtain ⟨hp, e, he, hrest⟩ := hc
    refine List.nodup_cons.mpr ⟨?_, ih hrest⟩
    intro hmem
    obtain ⟨l, r, hlr⟩ := List.append_of_mem hmem
    have hrest2 : Seg h e.next (l ++ a :: r) none := by rw [← hlr]; exact hrest
    obtain ⟨m, _, hm⟩ := seg_append.mp hrest2
    have hm1 : m = some a := hm.1
    subst hm1
    have h1 : Chain h (some a) (a :: r) := hm
    have h2 : Chain h (some a) (a :: as) := ⟨rfl, e, he, hrest⟩
    have := congrArg List.length (chain_unique h1 h2)
    rw [hlr] at this
    simp at this
    omega

theorem toList_chain {h : Heap} {as : List Nat} :
    ∀ {p : Option Nat}, Chain h p as → toList h as.length p = as.map (valOf h) := by
  induction as with
  | nil => intro p _; rfl
  | cons a as ih =>
    intro p hc
    obtain ⟨hp, e, he, hrest⟩ := hc
    subst hp
    simp only [List.length_cons, toList, he, List.map_cons, valOf]
    rw [ih hrest]

theorem contents_linked {h : Heap} {q : queue_t} {as : List Nat} (hl : Linked h q as) :
    contents h q = as.map (valOf h) := by
  unfold contents
  rw [← hl.2]
  simpa using toList_chain hl.1

theorem sameVals_valOf {h h' : Heap} (hv : SameVals h h') : valOf h' = valOf h := by
  funext a
  have := hv a
  unfold valOf
  cases h1 : h a <;> cases h2 : h' a <;> simp_all

theorem SameVals.refl (h : Heap) : SameVals h h := fun _ => rfl

theorem SameVals.trans {h1 h2 h3 : Heap} (a : SameVals h1 h2) (b : SameVals h2 h3) :
    SameVals h1 h3 := fun x => (b x).trans (a x)

theorem setNext_some {h : Heap} {a : Nat} {e : list_ele_t} (he : h a = some e) (q : Option Nat) :
    setNext h (some a) q = some (h.write a { e with next := q }) := by
  simp [setNext, he]

theorem write_same (h : Heap) (a : Nat) (e : list_ele_t) : h.write a e a = some e := by
  simp [Heap.write]

theorem write_other (h : Heap) {a b : Nat} (e : list_ele_t) (hne : b ≠ a) :
    h.write a e b = h b := by
  simp [Heap.write, hne]

theorem sameVals_write {h : Heap} {a : Nat} {e : list_ele_t} (he : h a = some e) (q : Option Nat) :
    SameVals h (h.write a { e with next := q }) := by
  intro b
  by_cases hb : b = a
  · subst hb; simp [Heap.write, he]
  · simp [Heap.write, hb]

/-! ## Reversal -/

theorem reverse_loop_spec : ∀ (rest : List Nat) (fuel : Nat) (h : Heap) (cur next : Option Nat)
    (done : List Nat), Chain h next rest → Chain h cur done → (rest ++ done).Nodup →
    rest.length ≤ fuel →
    ∃ h' p', reverse_loop fuel h cur next = some (h', p') ∧
      Chain h' p' (rest.reverse ++ done) ∧ (∀ a, a ∉ rest → h' a = h a) ∧ SameVals h h'
  | [], fuel, h, cur, next, done => by
    intro hn hc _ _
    have hnext : next = none := hn
    subst hnext
    refine ⟨h, cur, ?_, by simpa using hc, fun _ _ => rfl, SameVals.refl h⟩
    cases fuel <;> simp [reverse_loop]
  | n :: rest, 0, _, _, _, _ => by
    intro _ _ _ hf
    simp at hf
  | n :: rest, fuel + 1, h, cur, next, done => by
    intro hn hc hnd hf
    obtain ⟨hp, e, he, hrest⟩ := hn
    subst hp
    have hnr : n ∉ rest := by
      have := List.nodup_cons.mp (List.nodup_append.mp hnd).1
      exact this.1
    have hnd2 : n ∉ done := by
      intro hmem
      exact (List.nodup_append.mp hnd).2.2 (List.mem_cons_self _ _) hmem
    let h1 : Heap := h.write n { e with next := cur }
    have hw1 : ∀ b, b ≠ n → h1 b = h b := fun b hb => write_other h _ hb
    have hc1 : Chain h1 (some n) (n :: done) :=
      ⟨rfl, _, write_same h n _, seg_frame (fun b hb => hw1 b (fun hbn => hnd2 (hbn ▸ hb))) hc⟩
    have hr1 : Chain h1 e.next rest :=
      seg_frame (fun b hb => hw1 b (fun hbn => hnr (hbn ▸ hb))) hrest
    have hnd1 : (rest ++ n :: done).Nodup := by
      have hp : (rest ++ n :: done).Perm ((n :: rest) ++ done) := by
        simp
      exact hp.nodup_iff.mpr hnd
    obtain ⟨h', p', hrun, hch, hfr, hsv⟩ := reverse_loop_spec rest fuel h1 (some n) e.next
      (n :: done) hr1 hc1 hnd1 (by simpa using hf)
    refine ⟨h', p', ?_, by simpa using hch, ?_, ?_⟩
    · simp only [reverse_loop, getNext, he, Option.map_some', setNext_some he]
      exact hrun
    · intro a ha
      rw [hfr a (fun hm => ha (List.mem_cons_of_mem _ hm))]
      exact hw1 a (fun hm => ha (hm ▸ List.mem_cons_self _ _))
    · exact (sameVals_write he cur).trans hsv

/-- Reversal of a linked queue: the run succeeds with any fuel of at least
`size - 1`, the chain becomes the reverse chain of the same nodes, `tail` is the
old first node and no value changes. -/
theorem q_reverse_linked (fuel : Nat) (h : Heap) (q : queue_t) (as : List Nat)
    (hl : Linked h q as) (hf : as.length ≤ fuel + 1) :
    ∃ h' q', q_reverse fuel h (some q) = some (h', some q') ∧ Linked h' q' as.reverse ∧
      q'.size = q.size ∧ SameVals h h' ∧ (∀ a, a ∉ as → h' a = h a) ∧
      (as ≠ [] → q'.tail = q.head ∧ q'.head = as.getLast?) ∧ (as = [] → h' = h ∧ q' = q) := by
  obtain ⟨hc, hsz⟩ := hl
  cases as with
  | nil =>
    have h0 : q.size = 0 := by simpa using hsz.symm
    refine ⟨h, q, by simp [q_reverse, q_size, h0], ⟨by simpa using hc, by simpa using hsz⟩, rfl,
      SameVals.refl h, fun _ _ => rfl, fun hne => absurd rfl hne, fun _ => ⟨rfl, rfl⟩⟩
  | cons a rest =>
    have hnd := chain_nodup hc
    obtain ⟨hp, e, he, hrest⟩ := hc
    have har : a ∉ rest := (List.nodup_cons.mp hnd).1
    have hsz0 : q.size ≠ 0 := by
      rw [← hsz]; simp only [List.length_cons]; omega
    let h1 : Heap := h.write a { e with next := none }
    have hw1 : ∀ b, b ≠ a → h1 b = h b := fun b hb => write_other h _ hb
    have hc1 : Chain h1 (some a) [a] := ⟨rfl, _, write_same h a _, rfl⟩
    have hr1 : Chain h1 e.next rest :=
      seg_frame (fun b hb => hw1 b (fun hba => har (hba ▸ hb))) hrest
    have hnd1 : (rest ++ [a]).Nodup := by
      have hp2 : (rest ++ [a]).Perm (a :: rest) := by simp
      exact hp2.nodup_iff.mpr hnd
    obtain ⟨h', p', hrun, hch, hfr, hsv⟩ := reverse_loop_spec rest fuel h1 (some a) e.next [a]
      hr1 hc1 hnd1 (by simpa using hf)
    refine ⟨h', { head := p', tail := q.head, size := q.size }, ?_, ⟨?_, ?_⟩, rfl, ?_, ?_, ?_, ?_⟩
    · simp only [q_reverse, q_size, hsz0, ↓reduceIte, hp, getNext, he, Option.map_some',
        setNext_some he]
      show (reverse_loop fuel h1 (some a) e.next).bind _ = _
      rw [hrun]; rfl
    · simpa using hch
    · simpa using hsz
    · exact (sameVals_write he none).trans hsv
    · intro b hb
      rw [hfr b (fun hm => hb (List.mem_cons_of_mem _ hm))]
      exact hw1 b (fun hm => hb (hm ▸ List.mem_cons_self _ _))
    · intro _
      refine ⟨rfl, ?_⟩
      have hu : Chain h' p' ((a :: rest).getLast (by simp) :: (a :: rest).dropLast.reverse) := by
        have : (a :: rest).reverse = (a :: rest).getLast (by simp) :: (a :: rest).dropLast.reverse := by
          conv_lhs => rw [← List.dropLast_append_getLast (l := a :: rest) (by simp)]
          simp
        rw [← this]; simpa using hch
      rw [hu.1, List.getLast?_eq_getLast _ (by simp)]
    · intro hne; exact absurd hne (by simp)

/-! ## The sort on chains -/

theorem split_walk_spec {h : Heap} : ∀ (l : List Nat) (a : Nat) (p prev m : Option Nat),
    Seg h p (a :: l) m →
    split_walk h (l.length + 1) prev p = some (some ((a :: l).getLast (by simp)), m)
  | [], a, p, prev, m => by
    rintro ⟨hp, e, he, hrest⟩
    have hm : e.next = m := hrest
    subst hp
    simp [split_walk, getNext, he, hm]
  | b :: l, a, p, prev, m => by
    rintro ⟨hp, e, he, hrest⟩
    subst hp
    have ih := split_walk_spec l b e.next (some a) m hrest
    have hstep : split_walk h ((b :: l).length + 1) prev (some a) =
        split_walk h (l.length + 1) (some a) e.next := by
      rw [split_walk]
      simp [getNext, he]
    rw [hstep, ih]
    simp

theorem seg_set_last {h : Heap} {l : List Nat} {a : Nat} {e : list_ele_t} {p m : Option Nat}
    (hs : Seg h p (l ++ [a]) m) (hal : a ∉ l) (q : Option Nat) :
    Seg (h.write a { e with next := q }) p (l ++ [a]) q := by
  obtain ⟨m1, h1, h2⟩ := seg_append.mp hs
  refine seg_append.mpr ⟨m1, ?_, ?_⟩
  · exact seg_frame (fun b hb => write_other h _ (fun hba => hal (hba ▸ hb))) h1
  · exact ⟨h2.1, _, write_same h a _, rfl⟩

theorem tail_walk_spec {h : Heap} : ∀ (l : List Nat) (a : Nat) (p : Option Nat),
    Chain h p (a :: l) → tail_walk h l.length p = some (some ((a :: l).getLast (by simp)))
  | [], a, p => by
    rintro ⟨hp, _⟩
    subst hp
    simp [tail_walk]
  | b :: l, a, p => by
    rintro ⟨hp, e, he, hrest⟩
    subst hp
    have ih := tail_walk_spec l b e.next hrest
    have hstep : tail_walk h (b :: l).length (some a) = tail_walk h l.length e.next := by
      rw [List.length_cons, tail_walk]
      simp [getNext, he]
    rw [hstep, ih]
    simp

theorem merge_rest_nil_left (fuel : Nat) (h : Heap) (merged mid : Option Nat) :
    merge_rest fuel h merged none mid =
      if mid.isSome then setNext h merged mid else some h := by
  cases fuel <;> cases mid <;> simp [merge_rest, merge_loop]

theorem merge_rest_nil_right (fuel : Nat) (h : Heap) (merged : Option Nat) (s : Nat) :
    merge_rest fuel h merged (some s) none = setNext h merged (some s) := by
  cases fuel <;> simp [merge_rest, merge_loop]

theorem merge_rest_take_right (fuel : Nat) (h h1 : Heap) (merged merged1 mid1 : Option Nat)
    (s m : Nat) (es em : list_ele_t) (hs : h s = some es) (hm : h m = some em)
    (hgt : cmp es.value em.value > 0) (h1eq : setNext h merged (some m) = some h1)
    (hmg : getNext h1 merged = some merged1) (hmd : getNext h1 (some m) = some mid1) :
    merge_rest (fuel + 1) h merged (some s) (some m) = merge_rest fuel h1 merged1 (some s) mid1 := by
  simp only [merge_rest, merge_loop, getValue, hs, hm, Option.map_some', Option.bind_eq_bind,
    Option.some_bind, hgt, ↓reduceIte, h1eq, hmg, hmd]

theorem merge_rest_take_left (fuel : Nat) (h h1 : Heap) (merged merged1 start1 : Option Nat)
    (s m : Nat) (es em : list_ele_t) (hs : h s = some es) (hm : h m = some em)
    (hgt : ¬ cmp es.value em.value > 0) (h1eq : setNext h merged (some s) = some h1)
    (hmg : getNext h1 merged = some merged1) (hmd : getNext h1 (some s) = some start1) :
    merge_rest (fuel + 1) h merged (some s) (some m) = merge_rest fuel h1 merged1 start1 (some m) := by
  simp only [merge_rest, merge_loop, getValue, hs, hm, Option.map_some', Option.bind_eq_bind,
    Option.some_bind, hgt, ↓reduceIte, h1eq, hmg, hmd]

theorem valOf_of_some {h : Heap} {a : Nat} {e : list_ele_t} (he : h a = some e) :
    valOf h a = e.value := by
  simp [valOf, he]

theorem merge_rest_spec : ∀ (fuel : Nat) (xs ys : List Nat) (h : Heap) (m : Nat) (em : list_ele_t)
    (start mid : Option Nat), h m = some em → Chain h start xs → Chain h mid ys →
    m ∉ xs → m ∉ ys → (∀ a ∈ xs, a ∉ ys) → (em.next = start ∨ em.next = mid) →
    xs.length + ys.length ≤ fuel + 1 →
    ∃ h', merge_rest fuel h (some m) start mid = some h' ∧
      Chain h' (some m) (m :: mergeL (valOf h) xs ys) ∧
      (∀ a, a ≠ m → a ∉ xs → a ∉ ys → h' a = h a) ∧ SameVals h h' := by
  intro fuel
  induction fuel with
  | zero =>
    intro xs ys h m em start mid hm hxs hys hmx hmy hd hnext hf
    cases xs with
    | nil =>
      have hstart : start = none := hxs
      subst hstart
      cases ys with
      | nil =>
        have hmid : mid = none := hys
        subst hmid
        refine ⟨h, by simp [merge_rest_nil_left], ?_, fun _ _ _ _ => rfl, SameVals.refl h⟩
        exact ⟨rfl, em, hm, by rcases hnext with h1 | h1 <;> simpa [mergeL] using h1⟩
      | cons y ys =>
        have hmid : mid = some y := hys.1
        subst hmid
        refine ⟨h.write m { em with next := some y }, ?_, ?_, ?_, sameVals_write hm _⟩
        · simp [merge_rest_nil_left, setNext_some hm]
        · refine ⟨rfl, _, write_same h m _, ?_⟩
          simp only [mergeL]
          exact seg_frame (fun b hb => write_other h _ (fun hbm => hmy (hbm ▸ hb))) hys
        · intro a ha _ _; exact write_other h _ ha
    | cons x xs =>
      have hstart : start = some x := hxs.1
      subst hstart
      cases ys with
      | nil =>
        have hmid : mid = none := hys
        subst hmid
        refine ⟨h.write m { em with next := some x }, ?_, ?_, ?_, sameVals_write hm _⟩
        · simp [merge_rest_nil_right, setNext_some hm]
        · refine ⟨rfl, _, write_same h m _, ?_⟩
          simp only [mergeL]
          exact seg_frame (fun b hb => write_other h _ (fun hbm => hmx (hbm ▸ hb))) hxs
        · intro a ha _ _; exact write_other h _ ha
      | cons y ys => simp only [List.length_cons] at hf; omega
  | succ fuel ih =>
    intro xs ys h m em start mid hm hxs hys hmx hmy hd hnext hf
    cases xs with
    | nil =>
      have hstart : start = none := hxs
      subst hstart
      cases ys with
      | nil =>
        have hmid : mid = none := hys
        subst hmid
        refine ⟨h, by simp [merge_rest_nil_left], ?_, fun _ _ _ _ => rfl, SameVals.refl h⟩
        exact ⟨rfl, em, hm, by rcases hnext with h1 | h1 <;> simpa [mergeL] using h1⟩
      | cons y ys =>
        have hmid : mid = some y := hys.1
        subst hmid
        refine ⟨h.write m { em with next := some y }, ?_, ?_, ?_, sameVals_write hm _⟩
        · simp [merge_rest_nil_left, setNext_some hm]
        · refine ⟨rfl, _, write_same h m _, ?_⟩
          simp only [mergeL]
          exact seg_frame (fun b hb => write_other h _ (fun hbm => hmy (hbm ▸ hb))) hys
        · intro a ha _ _; exact write_other h _ ha
    | cons x xs =>
      have hstart : start = some x := hxs.1
      subst hstart
      cases ys with
      | nil =>
        have hmid : mid = none := hys
        subst hmid
        refine ⟨h.write m { em with next := some x }, ?_, ?_, ?_, sameVals_write hm _⟩
        · simp [merge_rest_nil_right, setNext_some hm]
        · refine ⟨rfl, _, write_same h m _, ?_⟩
          simp only [mergeL]
          exact seg_frame (fun b hb => write_other h _ (fun hbm => hmx (hbm ▸ hb))) hxs
        · intro a ha _ _; exact write_other h _ ha
      | cons y ys =>
        have hmid : mid = some y := hys.1
        subst hmid
        have hndx := chain_nodup hxs
        have hndy := chain_nodup hys
        obtain ⟨_, ex, hex, hxrest⟩ := hxs
        obtain ⟨_, ey, hey, hyrest⟩ := hys
        have hxm : x ≠ m := fun hx => hmx (hx ▸ List.mem_cons_self _ _)
        have hym : y ≠ m := fun hy => hmy (hy ▸ List.mem_cons_self _ _)
        have hxy : x ≠ y := fun hx => hd x (List.mem_cons_self _ _) (hx ▸ List.mem_cons_self _ _)
        have hvx : valOf h x = ex.value := valOf_of_some hex
        have hvy : valOf h y = ey.value := valOf_of_some hey
        by_cases hgt : cmp ex.value ey.value > 0
        · let h1 : Heap := h.write m { em with next := some y }
          have hw1 : ∀ b, b ≠ m → h1 b = h b := fun b hb => write_other h _ hb
          have hsv1 : SameVals h h1 := sameVals_write hm _
          have hstep := merge_rest_take_right fuel h h1 (some m) (some y) ey.next x y ex ey hex hey
            hgt (setNext_some hm _) (by simp [getNext, h1, write_same])
            (by simp [getNext, hw1 y hym, hey])
          have hxs1 : Chain h1 (some x) (x :: xs) :=
            seg_frame (fun b hb => hw1 b (fun hbm => hmx (hbm ▸ hb))) ⟨rfl, ex, hex, hxrest⟩
          have hys1 : Chain h1 ey.next ys :=
            seg_frame (fun b hb => hw1 b (fun hbm => hmy (hbm ▸ List.mem_cons_of_mem _ hb))) hyrest
          obtain ⟨h', hrun, hch, hfr, hsv⟩ := ih (x :: xs) ys h1 y ey (some x) ey.next
            (by rw [hw1 y hym]; exact hey) hxs1 hys1
            (fun hmem => hd y hmem (List.mem_cons_self _ _))
            (List.nodup_cons.mp hndy).1
            (fun a ha hay => hd a ha (List.mem_cons_of_mem _ hay))
            (Or.inr rfl) (by simp only [List.length_cons] at hf ⊢; omega)
          refine ⟨h', by rw [hstep]; exact hrun, ?_, ?_, hsv1.trans hsv⟩
          · refine ⟨rfl, { em with next := some y }, ?_, ?_⟩
            · rw [hfr m (fun hmy2 => hym hmy2.symm) hmx
                (fun hmem => hmy (List.mem_cons_of_mem _ hmem))]
              exact write_same h m _
            · rw [mergeL, hvx, hvy, if_pos hgt]
              rw [sameVals_valOf hsv1] at hch
              exact hch
          · intro a ham hax hay
            rw [hfr a (fun hay2 => hay (hay2 ▸ List.mem_cons_self _ _)) hax
              (fun hmem => hay (List.mem_cons_of_mem _ hmem))]
            exact hw1 a ham
        · let h1 : Heap := h.write m { em with next := some x }
          have hw1 : ∀ b, b ≠ m → h1 b = h b := fun b hb => write_other h _ hb
          have hsv1 : SameVals h h1 := sameVals_write hm _
          have hstep := merge_rest_take_left fuel h h1 (some m) (some x) ex.next x y ex ey hex hey
            hgt (setNext_some hm _) (by simp [getNext, h1, write_same])
            (by simp [getNext, hw1 x hxm, hex])
          have hxs1 : Chain h1 ex.next xs :=
            seg_frame (fun b hb => hw1 b (fun hbm => hmx (hbm ▸ List.mem_cons_of_mem _ hb))) hxrest
          have hys1 : Chain h1 (some y) (y :: ys) :=
            seg_frame (fun b hb => hw1 b (fun hbm => hmy (hbm ▸ hb))) ⟨rfl, ey, hey, hyrest⟩
          obtain ⟨h', hrun, hch, hfr, hsv⟩ := ih xs (y :: ys) h1 x ex ex.next (some y)
            (by rw [hw1 x hxm]; exact hex) hxs1 hys1
            (List.nodup_cons.mp hndx).1
            (fun hmem => hd x (List.mem_cons_self _ _) hmem)
            (fun a ha hay => hd a (List.mem_cons_of_mem _ ha) hay)
            (Or.inl rfl) (by simp only [List.length_cons] at hf ⊢; omega)
          refine ⟨h', by rw [hstep]; exact hrun, ?_, ?_, hsv1.trans hsv⟩
          · refine ⟨rfl, { em with next := some x }, ?_, ?_⟩
            · rw [hfr m (fun hmx2 => hxm hmx2.symm)
                (fun hmem => hmx (List.mem_cons_of_mem _ hmem)) hmy]
              exact write_same h m _
            · rw [mergeL, hvx, hvy, if_neg hgt]
              rw [sameVals_valOf hsv1] at hch
              exact hch
          · intro a ham hax hay
            rw [hfr a (fun hax2 => hax (hax2 ▸ List.mem_cons_self _ _))
              (fun hmem => hax (List.mem_cons_of_mem _ hmem)) hay]
            exact hw1 a ham

theorem merge_phase_spec (fuel : Nat) (xs ys : List Nat) (h : Heap) (start mid : Option Nat)
    (hxs : Chain h start xs) (hys : Chain h mid ys) (hx0 : xs ≠ []) (hy0 : ys ≠ [])
    (hd : ∀ a ∈ xs, a ∉ ys) (hf : xs.length + ys.length ≤ fuel + 2) :
    ∃ h' p', merge_phase fuel h start mid = some (h', p') ∧
      Chain h' p' (mergeL (valOf h) xs ys) ∧
      (∀ a, a ∉ xs → a ∉ ys → h' a = h a) ∧ SameVals h h' := by
  cases xs with
  | nil => exact absurd rfl hx0
  | cons x xs =>
  cases ys with
  | nil => exact absurd rfl hy0
  | cons y ys =>
    have hndx := chain_nodup hxs
    have hndy := chain_nodup hys
    obtain ⟨hstart, ex, hex, hxrest⟩ := hxs
    obtain ⟨hmid, ey, hey, hyrest⟩ := hys
    subst hstart; subst hmid
    have hvx : valOf h x = ex.value := valOf_of_some hex
    have hvy : valOf h y = ey.value := valOf_of_some hey
    by_cases hgt : cmp ex.value ey.value > 0
    · obtain ⟨h', hrun, hch, hfr, hsv⟩ := merge_rest_spec fuel (x :: xs) ys h y ey (some x) ey.next
        hey ⟨rfl, ex, hex, hxrest⟩ hyrest (fun hmem => hd y hmem (List.mem_cons_self _ _))
        (List.nodup_cons.mp hndy).1 (fun a ha hay => hd a ha (List.mem_cons_of_mem _ hay))
        (Or.inr rfl) (by simp only [List.length_cons] at hf ⊢; omega)
      refine ⟨h', some y, ?_, ?_, ?_, hsv⟩
      · simp [merge_phase, getValue, getNext, hex, hey, hgt, hrun]
      · rw [mergeL, hvx, hvy, if_pos hgt]; exact hch
      · intro a hax hay
        exact hfr a (fun h2 => hay (h2 ▸ List.mem_cons_self _ _)) hax
          (fun hmem => hay (List.mem_cons_of_mem _ hmem))
    · obtain ⟨h', hrun, hch, hfr, hsv⟩ := merge_rest_spec fuel xs (y :: ys) h x ex ex.next (some y)
        hex hxrest ⟨rfl, ey, hey, hyrest⟩ (List.nodup_cons.mp hndx).1
        (fun hmem => hd x (List.mem_cons_self _ _) hmem)
        (fun a ha hay => hd a (List.mem_cons_of_mem _ ha) hay)
        (Or.inl rfl) (by simp only [List.length_cons] at hf ⊢; omega)
      refine ⟨h', some x, ?_, ?_, ?_, hsv⟩
      · simp [merge_phase, getValue, getNext, hex, hey, hgt, hrun]
      · rw [mergeL, hvx, hvy, if_neg hgt]; exact hch
      · intro a hax hay
        exact hfr a (fun h2 => hax (h2 ▸ List.mem_cons_self _ _))
          (fun hmem => hax (List.mem_cons_of_mem _ hmem)) hay

theorem seg_alloc {h : Heap} {l : List Nat} :
    ∀ {p m : Option Nat}, Seg h p l m → ∀ a ∈ l, ∃ e, h a = some e := by
  induction l with
  | nil => intro _ _ _ a ha; exact absurd ha (List.not_mem_nil a)
  | cons b l ih =>
    intro p m hs a ha
    obtain ⟨_, e, he, hrest⟩ := hs
    rcases List.mem_cons.mp ha with hab | hal
    · subst hab; exact ⟨e, he⟩
    · exact ih hrest a hal

/-- The first part of the split of `n` nodes has `(n + 1) / 2` nodes: the number
of iterations of the split loop. -/
theorem split_count (Ln Rn : Int) (n : Nat) (hn : (n : Int) = Rn - Ln + 1) (h0 : 0 ≤ Ln)
    (h1 : 1 ≤ n) :
    ((Ln + Rn).tdiv 2 + 1 - Ln).toNat = (n + 1) / 2 := by
  have hsum : 0 ≤ Ln + Rn := by omega
  rw [Int.tdiv_eq_ediv hsum (by decide)]
  omega

theorem merge_sort_spec : ∀ (fuel : Nat) (h : Heap) (start : Option Nat) (Ln Rn : Int)
    (as : List Nat), Chain h start as → (as.length : Int) = Rn - Ln + 1 → 0 ≤ Ln →
    as.length ≤ fuel + 1 →
    ∃ h' p', merge_sort fuel h start Ln Rn = some (h', p') ∧
      Chain h' p' (msortL (valOf h) fuel as) ∧
      (∀ a, a ∉ as → h' a = h a) ∧ SameVals h h' := by
  intro fuel
  induction fuel with
  | zero =>
    intro h start Ln Rn as hc hn _ hf
    have hle : Rn ≤ Ln := by omega
    exact ⟨h, start, by simp [merge_sort, hle], by simpa [msortL] using hc, fun _ _ => rfl,
      SameVals.refl h⟩
  | succ fuel ih =>
    intro h start Ln Rn as hc hn h0 hf
    by_cases hle : Rn ≤ Ln
    · have h1 : as.length ≤ 1 := by omega
      exact ⟨h, start, by simp [merge_sort, hle], by simpa [msortL, h1] using hc,
        fun _ _ => rfl, SameVals.refl h⟩
    · have hn2 : 2 ≤ as.length := by omega
      have hnd := chain_nodup hc
      have hk := split_count Ln Rn as.length hn h0 (by omega)
      have hsum : 0 ≤ Ln + Rn := by omega
      have hM : (Ln + Rn).tdiv 2 = (Ln + Rn) / 2 := Int.tdiv_eq_ediv hsum (by decide)
      have hlen_l : (as.take ((as.length + 1) / 2)).length = (as.length + 1) / 2 := by
        rw [List.length_take]; omega
      have hlen_r : (as.drop ((as.length + 1) / 2)).length = as.length - (as.length + 1) / 2 := by
        rw [List.length_drop]
      have hsplit : as.take ((as.length + 1) / 2) ++ as.drop ((as.length + 1) / 2) = as :=
        List.take_append_drop _ _
      generalize hl : as.take ((as.length + 1) / 2) = l at hlen_l hsplit
      generalize hr : as.drop ((as.length + 1) / 2) = r at hlen_r hsplit
      have hc2 : Seg h start (l ++ r) none := by rw [hsplit]; exact hc
      obtain ⟨m, hsl, hsr⟩ := seg_append.mp hc2
      have hnd2 : (l ++ r).Nodup := by rw [hsplit]; exact hnd
      have hdisj : ∀ a ∈ l, a ∉ r := fun a ha har => (List.nodup_append.mp hnd2).2.2 ha har
      have hl0 : l ≠ [] := by
        intro hnil; rw [hnil] at hlen_l; simp at hlen_l; omega
      have hr0 : r ≠ [] := by
        intro hnil; rw [hnil] at hlen_r; simp at hlen_r; omega
      obtain ⟨a, l', hal⟩ := List.exists_cons_of_ne_nil hl0
      have hwalk : split_walk h ((Ln + Rn).tdiv 2 + 1 - Ln).toNat start start =
          some (some (l.getLast hl0), m) := by
        rw [hk, ← hlen_l]
        subst hal
        exact split_walk_spec l' a start start m hsl
      obtain ⟨e, he⟩ := seg_alloc hsl (l.getLast hl0) (List.getLast_mem hl0)
      have hlast_l : l.getLast hl0 ∉ l.dropLast := by
        have hndl : (l.dropLast ++ [l.getLast hl0]).Nodup := by
          rw [List.dropLast_append_getLast]; exact (List.nodup_append.mp hnd2).1
        intro hmem
        exact (List.nodup_append.mp hndl).2.2 hmem (List.mem_singleton_self _)
      have hw1 : ∀ b, b ≠ l.getLast hl0 →
          h.write (l.getLast hl0) { e with next := none } b = h b :=
        fun b hb => write_other h _ hb
      have hsv1 : SameVals h (h.write (l.getLast hl0) { e with next := none }) :=
        sameVals_write he _
      have hcl : Chain (h.write (l.getLast hl0) { e with next := none }) start l := by
        have hsl2 : Seg h start (l.dropLast ++ [l.getLast hl0]) m := by
          rw [List.dropLast_append_getLast]; exact hsl
        have := seg_set_last (e := e) hsl2 hlast_l none
        rw [List.dropLast_append_getLast] at this
        exact this
      have hcr : Chain (h.write (l.getLast hl0) { e with next := none }) m r :=
        seg_frame (fun b hb => hw1 b (fun hbl => hdisj _ (List.getLast_mem hl0) (hbl ▸ hb))) hsr
      obtain ⟨h2, p2, hrun1, hch1, hfr1, hsv2⟩ := ih _ start Ln ((Ln + Rn).tdiv 2) l hcl
        (by rw [hlen_l, hM]; omega) h0 (by rw [hlen_l]; omega)
      have hcr2 : Chain h2 m r :=
        seg_frame (fun b hb => hfr1 b (fun hbl => hdisj b hbl hb)) hcr
      obtain ⟨h3, p3, hrun2, hch2, hfr2, hsv3⟩ := ih h2 m ((Ln + Rn).tdiv 2 + 1) Rn r hcr2
        (by rw [hlen_r, hM]; omega) (by rw [hM]; omega) (by rw [hlen_r]; omega)
      have hv1 : valOf (h.write (l.getLast hl0) { e with next := none }) = valOf h :=
        sameVals_valOf hsv1
      have hv2 : valOf h2 = valOf h := by rw [sameVals_valOf hsv2, hv1]
      have hv3 : valOf h3 = valOf h := by rw [sameVals_valOf hsv3, hv2]
      rw [hv1] at hch1
      rw [hv2] at hch2
      have hpl := msortL_perm (valOf h) fuel l
      have hpr := msortL_perm (valOf h) fuel r
      have hch1b : Chain h3 p2 (msortL (valOf h) fuel l) :=
        seg_frame (fun b hb => hfr2 b (fun hbr => hdisj b (hpl.subset hb) hbr)) hch1
      obtain ⟨h4, p4, hrun3, hch3, hfr3, hsv4⟩ := merge_phase_spec fuel _ _ h3 p2 p3 hch1b hch2
        (fun hnil => hl0 (by simpa [hnil] using hpl.symm))
        (fun hnil => hr0 (by simpa [hnil] using hpr.symm))
        (fun b hb hbr => hdisj b (hpl.subset hb) (hpr.subset hbr))
        (by rw [hpl.length_eq, hpr.length_eq, hlen_l, hlen_r]; omega)
      rw [hv3] at hch3
      refine ⟨h4, p4, ?_, ?_, ?_, ((hsv1.trans hsv2).trans hsv3).trans hsv4⟩
      · simp only [merge_sort, hle, ↓reduceIte, hwalk, Option.bind_eq_bind, Option.some_bind,
          setNext_some he, hrun1, hrun2]
        exact hrun3
      · rw [msortL, if_neg (by omega), hl, hr]
        exact hch3
      · intro b hb
        have hbl : b ∉ l := fun hm => hb (hsplit ▸ List.mem_append_left _ hm)
        have hbr : b ∉ r := fun hm => hb (hsplit ▸ List.mem_append_right _ hm)
        rw [hfr3 b (fun hm => hbl (hpl.subset hm)) (fun hm => hbr (hpr.subset hm)),
          hfr2 b hbr, hfr1 b hbl]
        exact hw1 b (fun hm => hbl (hm ▸ List.getLast_mem hl0))

theorem msortL_nil {α : Type} (v : α → Str) (fuel : Nat) : msortL v fuel [] = [] := by
  cases fuel <;> simp [msortL]

/-- Sort of a linked queue: the run succeeds with any fuel of at least
`size - 1`, the chain becomes the chain of the same nodes in the order computed
by `msortL`, `tail` is its last node and no value changes. -/
theorem q_sort_linked (fuel : Nat) (h : Heap) (q : queue_t) (as : List Nat)
    (hl : Linked h q as) (hf : as.length ≤ fuel + 1) :
    ∃ h' q', q_sort fuel h (some q) = some (h', some q') ∧
      Linked h' q' (msortL (valOf h) fuel as) ∧
      q'.size = q.size ∧ SameVals h h' ∧ (∀ a, a ∉ as → h' a = h a) ∧
      (as ≠ [] → q'.tail = (msortL (valOf h) fuel as).getLast?) ∧
      (as = [] → h' = h ∧ q' = q) := by
  obtain ⟨hc, hsz⟩ := hl
  by_cases hnil : as = []
  · subst hnil
    have h0 : q.size = 0 := by simpa using hsz.symm
    refine ⟨h, q, by simp [q_sort, q_size, h0], ⟨?_, ?_⟩, rfl, SameVals.refl h,
      fun _ _ => rfl, fun hne => absurd rfl hne, fun _ => ⟨rfl, rfl⟩⟩
    · rw [msortL_nil]; exact hc
    · rw [msortL_nil]; exact hsz
  · have hpos : 0 < as.length := List.length_pos.mpr hnil
    have hsz0 : q.size ≠ 0 := by omega
    obtain ⟨h', p', hrun, hch, hfr, hsv⟩ := merge_sort_spec fuel h q.head 0 (q.size - 1) as hc
      (by omega) (le_refl 0) hf
    have hlen := msortL_length (valOf h) fuel as
    have hne : msortL (valOf h) fuel as ≠ [] := by
      intro h2; rw [h2] at hlen; simp at hlen; omega
    obtain ⟨b, l, hbl⟩ := List.exists_cons_of_ne_nil hne
    have hwalk : tail_walk h' (q.size - 1).toNat p' =
        some ((msortL (valOf h) fuel as).getLast?) := by
      have hcnt : (q.size - 1).toNat = l.length := by
        rw [hbl] at hlen; simp only [List.length_cons] at hlen; omega
      rw [hcnt, hbl, List.getLast?_eq_getLast _ (by simp)]
      rw [hbl] at hch
      exact tail_walk_spec l b p' hch
    refine ⟨h', { head := p', tail := (msortL (valOf h) fuel as).getLast?, size := q.size }, ?_,
      ⟨hch, by rw [hlen]; exact hsz⟩, rfl, hsv, hfr, fun _ => rfl, fun h2 => absurd h2 hnil⟩
    simp only [q_sort, q_size, hsz0, ↓reduceIte, hrun, Option.bind_eq_bind, Option.some_bind,
      hwalk]

theorem seg_head {h : Heap} {l : List Nat} {p : Option Nat} (hc : Chain h p l) :
    p = l.head? := by
  cases l with
  | nil => exact hc
  | cons a l => exact hc.1

theorem chain_agree {h h' : Heap} (hv : SameVals h h') {as : List Nat} :
    ∀ {p : Option Nat}, Chain h p as → Chain h' p as → ∀ a ∈ as, h' a = h a := by
  induction as with
  | nil => intro _ _ _ a ha; exact absurd ha (List.not_mem_nil a)
  | cons b as ih =>
    intro p hc hc' a ha
    obtain ⟨_, e, he, hrest⟩ := hc
    obtain ⟨_, e', he', hrest'⟩ := hc'
    have hn2 : e'.next = e.next := by rw [seg_head hrest, seg_head hrest']
    rcases List.mem_cons.mp ha with hab | hal
    · subst hab
      have hval := hv a
      rw [he, he'] at hval
      have hv2 : e'.value = e.value := by simpa using hval
      rw [he, he']
      cases e; cases e'; simp_all
    · rw [hn2] at hrest'
      exact ih hrest hrest' a hal

/-! ## Sorting: order and content -/

/-- C3. For every well-formed queue holding `[v1, ..., vn]`, `q_reverse` run with
any fuel of at least `size - 1` returns, and the sequence read head to tail is
then exactly `[vn, ..., v1]`: the chain is the reverse chain of the same nodes,
the old tail node is the new head, the old head node is the new tail, and `size`
is unchanged. -/
theorem q_reverse_reverses (fuel : Nat) (h : Heap) (q : queue_t) (as : List Nat)
    (hl : Linked h q as) (ht : as ≠ [] → q.tail = as.getLast?) (hf : as.length ≤ fuel + 1) :
    ∃ h' q', q_reverse fuel h (some q) = some (h', some q') ∧
      contents h' q' = (contents h q).reverse ∧ Linked h' q' as.reverse ∧
      (as ≠ [] → q'.head = q.tail ∧ q'.tail = q.head) ∧ q'.size = q.size := by
  obtain ⟨h', q', hrun, hl', hsz, hsv, _, hends, _⟩ := q_reverse_linked fuel h q as hl hf
  refine ⟨h', q', hrun, ?_, hl', ?_, hsz⟩
  · rw [contents_linked hl', contents_linked hl, sameVals_valOf hsv, List.map_reverse]
  · intro hne
    exact ⟨by rw [(hends hne).2, ht hne], (hends hne).1⟩

theorem q_reverse_reverses_witness :
    Linked exHeap exQueue [3, 1, 2] ∧
    ∃ h' q', q_reverse 2 exHeap (some exQueue) = some (h', some q') ∧
      contents h' q' = (contents exHeap exQueue).reverse ∧ Linked h' q' [3, 1, 2].reverse ∧
      (([3, 1, 2] : List Nat) ≠ [] → q'.head = exQueue.tail ∧ q'.tail = exQueue.head) ∧
      q'.size = exQueue.size :=
  ⟨⟨⟨rfl, _, rfl, rfl, _, rfl, rfl, _, rfl, rfl⟩, rfl⟩,
    q_reverse_reverses 2 exHeap exQueue [3, 1, 2]
      ⟨⟨rfl, _, rfl, rfl, _, rfl, rfl, _, rfl, rfl⟩, rfl⟩ (fun _ => rfl) (by decide)⟩

/-- C4. For every well-formed queue, two runs of `q_reverse` return and give back
the original: the same `head`, `tail` and `size`, the same chain of nodes, the
same store, hence the same sequence read head to tail. -/
theorem q_reverse_involution (fuel1 fuel2 : Nat) (h : Heap) (q : queue_t) (as : List Nat)
    (hl : Linked h q as) (ht : as ≠ [] → q.tail = as.getLast?)
    (hf1 : as.length ≤ fuel1 + 1) (hf2 : as.length ≤ fuel2 + 1) :
    ∃ h1 q1, q_reverse fuel1 h (some q) = some (h1, some q1) ∧
      q_reverse fuel2 h1 (some q1) = some (h, some q) ∧
      contents h1 q1 = (contents h q).reverse := by
  obtain ⟨h1, q1, hrun1, hl1, hsz1, hsv1, hfr1, hends1, hnil1⟩ :=
    q_reverse_linked fuel1 h q as hl hf1
  obtain ⟨h2, q2, hrun2, hl2, hsz2, hsv2, hfr2, hends2, hnil2⟩ :=
    q_reverse_linked fuel2 h1 q1 as.reverse hl1 (by simpa using hf2)
  refine ⟨h1, q1, hrun1, ?_, ?_⟩
  · by_cases hne : as = []
    · obtain ⟨e1, e2⟩ := hnil1 hne
      obtain ⟨e3, e4⟩ := hnil2 (by simp [hne])
      rw [hrun2, e3, e4, e1, e2]
    · have hne' : as.reverse ≠ [] := by simpa using hne
      have hq : q2 = q := by
        have hh : q2.head = q.head := by
          rw [(hends2 hne').2, List.getLast?_reverse, ← seg_head hl.1]
        have htl : q2.tail = q.tail := by
          rw [(hends2 hne').1, (hends1 hne).2, ht hne]
        have hs : q2.size = q.size := by rw [hsz2, hsz1]
        cases q2; cases q; simp_all
      have hh : h2 = h := by
        funext a
        by_cases ha : a ∈ as
        · have hc2 : Chain h2 q.head as := by
            have := hl2.1
            rw [List.reverse_reverse, hq] at this
            exact this
          exact chain_agree (hsv1.trans hsv2) hl.1 hc2 a ha
        · rw [hfr2 a (by simpa using ha), hfr1 a ha]
      rw [hrun2, hq, hh]
  · rw [contents_linked hl1, contents_linked hl, sameVals_valOf hsv1, List.map_reverse]

theorem q_reverse_involution_witness :
    Linked exHeap exQueue [3, 1, 2] ∧
    ∃ h1 q1, q_reverse 2 exHeap (some exQueue) = some (h1, some q1) ∧
      q_reverse 5 h1 (some q1) = some (exHeap, some exQueue) ∧
      contents h1 q1 = (contents exHeap exQueue).reverse :=
  ⟨⟨⟨rfl, _, rfl, rfl, _, rfl, rfl, _, rfl, rfl⟩, rfl⟩,
    q_reverse_involution 2 5 exHeap exQueue [3, 1, 2]
      ⟨⟨rfl, _, rfl, rfl, _, rfl, rfl, _, rfl, rfl⟩, rfl⟩ (fun _ => rfl) (by decide)
      (by decide)⟩

/-! ## Insertion and removal -/

theorem q_insert_head_size {h h' : Heap} {q q' : Option queue_t} {s : Str} {newh : Option Nat}
    {valOk r : Bool} (hrun : q_insert_head h q s newh valOk = some (r, h', q')) :
    q_size q' = q_size q + (if r then 1 else 0) := by
  unfold q_insert_head at hrun
  cases q with
  | none =>
    simp only [Option.some.injEq, Prod.mk.injEq] at hrun
    obtain ⟨hr, _, hq⟩ := hrun
    subst hr; subst hq; simp
  | some q0 =>
    cases newh with
    | none =>
      simp only [Option.some.injEq, Prod.mk.injEq] at hrun
      obtain ⟨hr, _, hq⟩ := hrun
      subst hr; subst hq; simp
    | some a =>
      cases valOk with
      | false =>
        simp only [Bool.false_eq_true, not_false_eq_true, ↓reduceIte, Option.some.injEq,
          Prod.mk.injEq] at hrun
        obtain ⟨hr, _, hq⟩ := hrun
        subst hr; subst hq; simp
      | true =>
        simp only [not_true_eq_false, ↓reduceIte, strncpy_alloc, Option.bind_eq_bind,
          Option.some_bind, Option.some.injEq, Prod.mk.injEq] at hrun
        obtain ⟨hr, _, hq⟩ := hrun
        subst hr; subst hq
        by_cases h0 : q0.size = 0 <;> simp [q_size, h0]

theorem q_insert_tail_size {h h' : Heap} {q q' : Option queue_t} {s : Str} {newh : Option Nat}
    {valOk r : Bool} (hrun : q_insert_tail h q s newh valOk = some (r, h', q')) :
    q_size q' = q_size q + (if r then 1 else 0) := by
  unfold q_insert_tail at hrun
  cases q with
  | none =>
    simp only [Option.some.injEq, Prod.mk.injEq] at hrun
    obtain ⟨hr, _, hq⟩ := hrun
    subst hr; subst hq; simp
  | some q0 =>
    cases newh with
    | none =>
      simp only [Option.some.injEq, Prod.mk.injEq] at hrun
      obtain ⟨hr, _, hq⟩ := hrun
      subst hr; subst hq; simp
    | some a =>
      cases valOk with
      | false =>
        simp only [Bool.false_eq_true, not_false_eq_true, ↓reduceIte, Option.some.injEq,
          Prod.mk.injEq] at hrun
        obtain ⟨hr, _, hq⟩ := hrun
        subst hr; subst hq; simp
      | true =>
        simp only [not_true_eq_false, ↓reduceIte, strncpy_alloc, Option.bind_eq_bind,
          Option.some_bind] at hrun
        by_cases h0 : q0.size = 0
        · simp only [h0, ↓reduceIte, Option.some.injEq, Prod.mk.injEq] at hrun
          obtain ⟨hr, _, hq⟩ := hrun
          subst hr; subst hq; simp [q_size, h0]
        · simp only [h0, ↓reduceIte] at hrun
          cases hset : setNext ((h.write a { value := [], next := none }).write a
              { value := cstr s ++ [0], next := none }) q0.tail (some a) with
          | none => simp [hset] at hrun
          | some h2 =>
            simp only [hset, Option.some_bind, Option.some.injEq, Prod.mk.injEq] at hrun
            obtain ⟨hr, _, hq⟩ := hrun
            subst hr; subst hq; simp [q_size]

theorem runInserts_size : ∀ (cs : List InsertCall) (h h' : Heap) (q q' : Option queue_t)
    (rs : List Bool), runInserts h q cs = some (rs, h', q') →
    q_size q' = q_size q + rs.count true ∧ rs.length = cs.length
  | [], h, h', q, q', rs => by
    intro hrun
    simp only [runInserts, Option.some.injEq, Prod.mk.injEq] at hrun
    obtain ⟨hr, _, hq⟩ := hrun
    subst hr; subst hq; simp
  | c :: cs, h, h', q, q', rs => by
    intro hrun
    simp only [runInserts, Option.bind_eq_bind] at hrun
    cases h1 : c.run h q with
    | none => simp [h1] at hrun
    | some r1 =>
      obtain ⟨r, h1', q1⟩ := r1
      simp only [h1, Option.some_bind] at hrun
      cases h2 : runInserts h1' q1 cs with
      | none => simp [h2] at hrun
      | some r2 =>
        obtain ⟨rs2, h2', q2⟩ := r2
        simp only [h2, Option.some_bind, Option.some.injEq, Prod.mk.injEq] at hrun
        obtain ⟨hr, _, hq⟩ := hrun
        subst hr; subst hq
        obtain ⟨ih1, ih2⟩ := runInserts_size cs h1' h2' q1 q2 rs2 h2
        have hstep : q_size q1 = q_size q + (if r then 1 else 0) := by
          cases c with
          | atHead s newh valOk => exact q_insert_head_size h1
          | atTail s newh valOk => exact q_insert_tail_size h1
        refine ⟨?_, by simp [ih2]⟩
        rw [ih1, hstep]
        cases r
        · simp
        · simp only [↓reduceIte, List.count_cons_self]; omega

/-- C5. For every sequence of insertion calls (any mix of `q_insert_head` and
`q_insert_tail`, whatever `malloc` returns) applied to the queue made by `q_new`,
`q_size` is the number of calls that returned true; when all `N` calls return
true, `q_size` is `N`. -/
theorem size_after_inserts (ok : Bool) (h h' : Heap) (cs : List InsertCall) (rs : List Bool)
    (q' : Option queue_t) (hrun : runInserts h (q_new ok) cs = some (rs, h', q')) :
    q_size q' = rs.count true ∧ ((∀ r ∈ rs, r = true) → q_size q' = cs.length) := by
  obtain ⟨h1, h2⟩ := runInserts_size cs h h' (q_new ok) q' rs hrun
  have h0 : q_size (q_new ok) = 0 := by cases ok <;> rfl
  rw [h0] at h1
  refine ⟨by simpa using h1, ?_⟩
  intro hall
  have hcount : rs.count true = rs.length := List.count_eq_length.mpr (by simpa using hall)
  rw [h1, hcount, h2]; simp

theorem size_after_inserts_witness :
    q_size (some { head := some 2, tail := some 1, size := 2 }) = [true, false, true].count true :=
  (size_after_inserts true emptyHeap _
    [.atTail [98] (some 1) true, .atHead [99] none true, .atHead [97] (some 2) true]
    [true, false, true] (some { head := some 2, tail := some 1, size := 2 }) rfl).1

theorem write_free_fresh {h : Heap} {a : Nat} (hfree : h a = none) (e : list_ele_t) :
    (h.write a e).free a = h := by
  funext b
  by_cases hb : b = a
  · subst hb; simp [Heap.free, hfree]
  · simp [Heap.free, Heap.write, hb]

theorem write_write (h : Heap) (a : Nat) (e1 e2 : list_ele_t) :
    (h.write a e1).write a e2 = h.write a e2 := by
  funext b
  by_cases hb : b = a <;> simp [Heap.write, hb]

/-- A successful `q_insert_head`: the new node holds the string and its
terminator and links to the old head. -/
theorem q_insert_head_ok (h : Heap) (q : queue_t) (s : Str) (a : Nat) :
    q_insert_head h (some q) s (some a) true =
      some (true, h.write a { value := cstr s ++ [0], next := q.head },
        some { head := some a, tail := if q.size = 0 then some a else q.tail,
               size := q.size + 1 }) := by
  simp only [q_insert_head, not_true_eq_false, ↓reduceIte, strncpy_alloc, Option.bind_eq_bind,
    Option.some_bind, write_write]
  by_cases h0 : q.size = 0 <;> simp [h0]

theorem cstr_block (s : Str) : cstr (cstr s ++ [0]) = cstr s :=
  cstr_append_zero (cstr s) [] (cstr_ne_zero s)

theorem cstr_copy_out (v D : Str) (k m : Nat) :
    cstr ((cstr v).take k ++ List.replicate (m + 1) 0 ++ D) = (cstr v).take k := by
  rw [List.replicate_succ, List.append_assoc, List.cons_append]
  exact cstr_append_zero _ _ (fun b hb => cstr_ne_zero v b (List.mem_of_mem_take hb))

/-- C6. For every present queue whose chain has exactly `size` nodes and every
string `s`, a successful `q_insert_head` (the node is allocated at a free
address) followed by `q_remove_head` with a buffer of `bufsize > strlen s` bytes
returns true, leaves exactly `s` in the buffer, and restores the store, the
`head` and the `size`, hence the sequence read head to tail. -/
theorem insert_head_remove_head (h : Heap) (q : queue_t) (as : List Nat) (s buf : Str)
    (a bufsize : Nat) (hl : Linked h q as) (hfree : h a = none) (hlen : strlen s < bufsize)
    (hcap : bufsize ≤ buf.length) (h64 : bufsize < 2 ^ 64) :
    ∃ h1 q1 q2 out, q_insert_head h (some q) s (some a) true = some (true, h1, some q1) ∧
      q_remove_head h1 (some q1) (some buf) bufsize = some (true, h, some q2, some out) ∧
      cstr out = cstr s ∧ q2.head = q.head ∧ q2.size = q.size ∧
      Linked h q2 as ∧ contents h q2 = contents h q := by
  have hsz : 0 ≤ q.size := by rw [← hl.2]; exact Int.natCast_nonneg _
  have hne : q.size + 1 ≠ 0 := by omega
  have hcopy := copy_out buf (cstr s ++ [0]) bufsize (by omega) hcap h64
  refine ⟨_, _, { head := q.head, tail := if q.size = 0 then some a else q.tail, size := q.size },
    (cstr (cstr s ++ [0])).take (bufsize - 1) ++
      List.replicate (bufsize - 1 - strlen (cstr s ++ [0]) + 1) 0 ++ buf.drop bufsize,
    q_insert_head_ok h q s a, ?_, ?_, rfl, rfl, ⟨hl.1, hl.2⟩, rfl⟩
  · simp only [q_remove_head, q_size, hne, ↓reduceIte, getValue, write_same, Option.map_some',
      Option.bind_eq_bind, Option.some_bind, getNext, write_free_fresh hfree,
      add_sub_cancel_right]
    simp only [Option.bind_eq_bind] at hcopy
    cases hc1 : strncpy buf (cstr s ++ [0]) bufsize with
    | none => simp [hc1] at hcopy
    | some b1 =>
      simp only [hc1, Option.some_bind] at hcopy ⊢
      rw [hcopy]
      rfl
  · rw [cstr_copy_out]
    have : strlen (cstr s ++ [0]) = strlen s := by unfold strlen; rw [cstr_block]
    rw [cstr_block]
    apply List.take_of_length_le
    unfold strlen at hlen; omega

theorem insert_head_remove_head_witness :
    ∃ h1 q1 q2 out, q_insert_head exHeap (some exQueue) [100, 101] (some 7) true =
        some (true, h1, some q1) ∧
      q_remove_head h1 (some q1) (some [9, 9, 9, 9, 9]) 4 =
        some (true, exHeap, some q2, some out) ∧
      cstr out = cstr [100, 101] ∧ q2.head = exQueue.head ∧ q2.size = exQueue.size ∧
      Linked exHeap q2 [3, 1, 2] ∧ contents exHeap q2 = contents exHeap exQueue :=
  insert_head_remove_head exHeap exQueue [3, 1, 2] [100, 101] [9, 9, 9, 9, 9] 7 4
    ⟨⟨rfl, _, rfl, rfl, _, rfl, rfl, _, rfl, rfl⟩, rfl⟩ rfl (by decide) (by decide) (by decide)

/-- C7. For every queue of non-zero size whose head node holds the block `v` and
every buffer with at least `C > 0` bytes, `q_remove_head` with capacity `C` returns
true, changes no byte of the buffer beyond the first `C`, and leaves in it the
terminated string made of the first `min (strlen v) (C - 1)` bytes of `v`: at
most `C - 1` bytes followed by a `0` byte. -/
theorem q_remove_head_truncates (h : Heap) (q : queue_t) (a : Nat) (e : list_ele_t) (buf : Str)
    (C : Nat) (hne : q.size ≠ 0) (hhead : q.head = some a) (he : h a = some e) (hC : 0 < C)
    (hcap : C ≤ buf.length) (h64 : C < 2 ^ 64) :
    ∃ h' q' out, q_remove_head h (some q) (some buf) C = some (true, h', some q', some out) ∧
      out.length = buf.length ∧ out.drop C = buf.drop C ∧
      cstr out = (cstr e.value).take (min (strlen e.value) (C - 1)) ∧
      (cstr out).length ≤ C - 1 ∧ out.getD (cstr out).length 1 = 0 := by
  have hcopy := copy_out buf e.value C hC hcap h64
  have hlenP : ((cstr e.value).take (C - 1)).length = min (strlen e.value) (C - 1) := by
    rw [List.length_take, Nat.min_comm]; rfl
  have hcs : cstr ((cstr e.value).take (C - 1) ++ List.replicate (C - 1 - strlen e.value + 1) 0 ++
      buf.drop C) = (cstr e.value).take (C - 1) := cstr_copy_out _ _ _ _
  refine ⟨h.free a, { head := e.next, tail := q.tail, size := q.size - 1 },
    (cstr e.value).take (C - 1) ++ List.replicate (C - 1 - strlen e.value + 1) 0 ++ buf.drop C,
    ?_, ?_, ?_, ?_, ?_, ?_⟩
  · simp only [q_remove_head, q_size, hne, ↓reduceIte, hhead, getValue, he, Option.map_some',
      Option.bind_eq_bind, Option.some_bind, getNext]
    simp only [Option.bind_eq_bind] at hcopy
    cases hc1 : strncpy buf e.value C with
    | none => simp [hc1] at hcopy
    | some b1 =>
      simp only [hc1, Option.some_bind] at hcopy ⊢
      rw [hcopy]
      rfl
  · simp only [List.length_append, hlenP, List.length_replicate, List.length_drop]
    omega
  · rw [List.drop_append_eq_append_drop, List.drop_eq_nil_of_le]
    · simp only [List.length_append, hlenP, List.length_replicate, List.nil_append]
      have : C - (min (strlen e.value) (C - 1) + (C - 1 - strlen e.value + 1)) = 0 := by omega
      rw [this]; rfl
    · simp only [List.length_append, hlenP, List.length_replicate]
      omega
  · rw [hcs]
    by_cases hk : C - 1 ≤ strlen e.value
    · rw [Nat.min_eq_right hk]
    · have hle : (cstr e.value).length ≤ C - 1 := by unfold strlen at hk; omega
      rw [Nat.min_eq_left (by omega), List.take_of_length_le hle]
      exact (List.take_of_length_le (le_refl _)).symm
  · rw [hcs, hlenP]; omega
  · rw [hcs, List.append_assoc, List.getD_eq_getElem?_getD,
      List.getElem?_append_right (le_refl _)]
    simp [List.replicate_succ]

theorem q_remove_head_truncates_witness :
    ∃ h' q' out, q_remove_head exHeap (some exQueue) (some [9, 9, 9, 9, 9]) 1 =
        some (true, h', some q', some out) ∧
      out.length = [9, 9, 9, 9, 9].length ∧ out.drop 1 = [9, 9, 9, 9, 9].drop 1 ∧
      cstr out = (cstr [99, 0]).take (min (strlen [99, 0]) (1 - 1)) ∧
      (cstr out).length ≤ 1 - 1 ∧ out.getD (cstr out).length 1 = 0 :=
  q_remove_head_truncates exHeap exQueue 3 { value := [99, 0], next := some 1 } [9, 9, 9, 9, 9] 1
    (by decide) rfl rfl (by decide) (by decide) (by decide)

/-- C8. The function `q_remove_head` returns false if and only if the queue is
absent or has size 0, and it then has no effect: the store, the queue record and
the output buffer are returned unchanged (so the size stays 0). -/
theorem q_remove_head_false_iff (h : Heap) (q : Option queue_t) (sp : Option Str) (bufsize : Nat) :
    (∀ r h' q' sp', q_remove_head h q sp bufsize = some (r, h', q', sp') →
      (r = false ↔ (q = none ∨ ∃ q0, q = some q0 ∧ q0.size = 0))) ∧
    ((q = none ∨ ∃ q0, q = some q0 ∧ q0.size = 0) →
      q_remove_head h q sp bufsize = some (false, h, q, sp) ∧ q_size q = 0) := by
  have hiff : (q = none ∨ ∃ q0, q = some q0 ∧ q0.size = 0) ↔ q_size q = 0 := by
    cases q with
    | none => simp [q_size]
    | some q0 => simp [q_size]
  constructor
  · intro r h' q' sp' hrun
    rw [hiff]
    by_cases h0 : q_size q = 0
    · simp only [q_remove_head, h0, ↓reduceIte, Option.some.injEq, Prod.mk.injEq] at hrun
      simp [h0, hrun.1.symm]
    · cases q with
      | none => exact absurd rfl h0
      | some q0 =>
        simp only [q_remove_head, h0, ↓reduceIte, Option.bind_eq_bind] at hrun
        simp only [h0, iff_false, Bool.not_eq_false]
        cases sp with
        | none =>
          simp only [Option.some_bind, Option.bind_eq_some, Option.some.injEq,
            Prod.mk.injEq] at hrun
          obtain ⟨_, _, _, _, _, _, hr, _⟩ := hrun
          exact hr.symm
        | some buf =>
          simp only [Option.some_bind, Option.bind_eq_some, Option.some.injEq,
            Prod.mk.injEq] at hrun
          obtain ⟨_, _, _, _, _, _, _, _, _, _, _, _, hr, _⟩ := hrun
          exact hr.symm
  · intro hq
    have h0 := hiff.mp hq
    exact ⟨by simp [q_remove_head, h0], h0⟩

/-! ## More fuel gives the same result -/

theorem reverse_loop_mono : ∀ (fuel : Nat) (h : Heap) (cur next : Option Nat)
    (r : Heap × Option Nat), reverse_loop fuel h cur next = some r →
    reverse_loop (fuel + 1) h cur next = some r
  | fuel, h, cur, none, r => by
    intro hrun
    cases fuel <;> simpa [reverse_loop] using hrun
  | 0, h, cur, some n, r => by
    intro hrun
    simp [reverse_loop] at hrun
  | fuel + 1, h, cur, some n, r => by
    intro hrun
    rw [reverse_loop] at hrun ⊢
    simp only [Option.bind_eq_bind, Option.bind_eq_some] at hrun ⊢
    obtain ⟨tmp, htmp, h1, hh1, hrest⟩ := hrun
    exact ⟨tmp, htmp, h1, hh1, reverse_loop_mono fuel h1 (some n) tmp r hrest⟩

theorem merge_loop_mono : ∀ (fuel : Nat) (h : Heap) (merged start mid : Option Nat)
    (r : Heap × Option Nat × Option Nat × Option Nat), merge_loop fuel h merged start mid = some r →
    merge_loop (fuel + 1) h merged start mid = some r
  | fuel, h, merged, none, mid, r => by
    intro hrun
    cases fuel <;> simpa [merge_loop] using hrun
  | fuel, h, merged, some s, none, r => by
    intro hrun
    cases fuel <;> simpa [merge_loop] using hrun
  | 0, h, merged, some s, some m, r => by
    intro hrun
    simp [merge_loop] at hrun
  | fuel + 1, h, merged, some s, some m, r => by
    intro hrun
    rw [merge_loop] at hrun ⊢
    simp only [Option.bind_eq_bind, Option.bind_eq_some] at hrun ⊢
    obtain ⟨vs, hvs, vm, hvm, hrest⟩ := hrun
    refine ⟨vs, hvs, vm, hvm, ?_⟩
    by_cases hgt : cmp vs vm > 0
    · simp only [hgt, ↓reduceIte, Option.bind_eq_some] at hrest ⊢
      obtain ⟨h1, hh1, m1, hm1, d1, hd1, hloop⟩ := hrest
      exact ⟨h1, hh1, m1, hm1, d1, hd1, merge_loop_mono fuel h1 m1 (some s) d1 r hloop⟩
    · simp only [hgt, ↓reduceIte, Option.bind_eq_some] at hrest ⊢
      obtain ⟨h1, hh1, m1, hm1, s1, hs1, hloop⟩ := hrest
      exact ⟨h1, hh1, m1, hm1, s1, hs1, merge_loop_mono fuel h1 m1 s1 (some m) r hloop⟩

theorem merge_rest_mono (fuel : Nat) (h : Heap) (merged start mid : Option Nat) (r : Heap)
    (hrun : merge_rest fuel h merged start mid = some r) :
    merge_rest (fuel + 1) h merged start mid = some r := by
  unfold merge_rest at hrun ⊢
  simp only [Option.bind_eq_bind, Option.bind_eq_some] at hrun ⊢
  obtain ⟨x, hx, hrest⟩ := hrun
  exact ⟨x, merge_loop_mono fuel h merged start mid x hx, hrest⟩

theorem merge_phase_mono (fuel : Nat) (h : Heap) (start mid : Option Nat)
    (r : Heap × Option Nat) (hrun : merge_phase fuel h start mid = some r) :
    merge_phase (fuel + 1) h start mid = some r := by
  unfold merge_phase at hrun ⊢
  simp only [Option.bind_eq_bind, Option.bind_eq_some] at hrun ⊢
  obtain ⟨vs, hvs, vm, hvm, hrest⟩ := hrun
  refine ⟨vs, hvs, vm, hvm, ?_⟩
  by_cases hgt : cmp vs vm > 0
  · simp only [hgt, ↓reduceIte, Option.bind_eq_bind, Option.bind_eq_some, Option.some_bind]
      at hrest ⊢
    obtain ⟨nxt, hnxt, h3, hh3, hr⟩ := hrest
    exact ⟨nxt, hnxt, h3, merge_rest_mono fuel h _ _ _ h3 hh3, hr⟩
  · simp only [hgt, ↓reduceIte, Option.bind_eq_bind, Option.bind_eq_some, Option.some_bind]
      at hrest ⊢
    obtain ⟨nxt, hnxt, h3, hh3, hr⟩ := hrest
    exact ⟨nxt, hnxt, h3, merge_rest_mono fuel h _ _ _ h3 hh3, hr⟩

theorem merge_sort_mono : ∀ (fuel : Nat) (h : Heap) (start : Option Nat) (Ln Rn : Int)
    (r : Heap × Option Nat), merge_sort fuel h start Ln Rn = some r →
    merge_sort (fuel + 1) h start Ln Rn = some r
  | 0, h, start, Ln, Rn, r => by
    intro hrun
    by_cases hle : Rn ≤ Ln
    · simpa [merge_sort, hle] using hrun
    · simp [merge_sort, hle] at hrun
  | fuel + 1, h, start, Ln, Rn, r => by
    intro hrun
    by_cases hle : Rn ≤ Ln
    · rw [merge_sort] at hrun ⊢
      simpa [hle] using hrun
    · rw [merge_sort] at hrun ⊢
      simp only [hle, ↓reduceIte, Option.bind_eq_bind, Option.bind_eq_some] at hrun ⊢
      obtain ⟨x, hx, h1, hh1, y, hy, z, hz, hrest⟩ := hrun
      exact ⟨x, hx, h1, hh1, y, merge_sort_mono fuel h1 start Ln _ y hy, z,
        merge_sort_mono fuel y.1 x.2 _ Rn z hz, merge_phase_mono fuel z.1 y.2 z.2 r hrest⟩

theorem q_reverse_mono (fuel : Nat) (h : Heap) (q : Option queue_t) (r : Heap × Option queue_t)
    (hrun : q_reverse fuel h q = some r) : q_reverse (fuel + 1) h q = some r := by
  unfold q_reverse at hrun ⊢
  by_cases h0 : q_size q = 0
  · simpa [h0] using hrun
  · cases q with
    | none => simp [h0] at hrun
    | some q0 =>
      simp only [h0, ↓reduceIte, Option.bind_eq_bind, Option.bind_eq_some] at hrun ⊢
      obtain ⟨nxt, hnxt, h1, hh1, x, hx, hrest⟩ := hrun
      exact ⟨nxt, hnxt, h1, hh1, x, reverse_loop_mono fuel h1 _ _ x hx, hrest⟩

theorem q_sort_mono (fuel : Nat) (h : Heap) (q : Option queue_t) (r : Heap × Option queue_t)
    (hrun : q_sort fuel h q = some r) : q_sort (fuel + 1) h q = some r := by
  unfold q_sort at hrun ⊢
  by_cases h0 : q_size q = 0
  · simpa [h0] using hrun
  · cases q with
    | none => simp [h0] at hrun
    | some q0 =>
      simp only [h0, ↓reduceIte, Option.bind_eq_bind, Option.bind_eq_some] at hrun ⊢
      obtain ⟨x, hx, hrest⟩ := hrun
      exact ⟨x, merge_sort_mono fuel h _ _ _ x hx, hrest⟩

theorem q_reverse_mono_add (k fuel : Nat) (h : Heap) (q : Option queue_t)
    (r : Heap × Option queue_t) (hrun : q_reverse fuel h q = some r) :
    q_reverse (fuel + k) h q = some r := by
  induction k with
  | zero => exact hrun
  | succ k ih => exact q_reverse_mono (fuel + k) h q r ih

theorem q_sort_mono_add (k fuel : Nat) (h : Heap) (q : Option queue_t)
    (r : Heap × Option queue_t) (hrun : q_sort fuel h q = some r) :
    q_sort (fuel + k) h q = some r := by
  induction k with
  | zero => exact hrun
  | succ k ih => exact q_sort_mono (fuel + k) h q r ih

/-! ## Well-formedness is kept by every operation -/

theorem fresh_not_mem {h : Heap} {p : Option Nat} {as : List Nat} {a : Nat}
    (hc : Chain h p as) (hfree : h a = none) : a ∉ as := by
  intro hmem
  obtain ⟨e, he⟩ := seg_alloc hc a hmem
  rw [hfree] at he
  exact absurd he (by simp)

/-- A successful `q_insert_head` on a linked queue: the chain gains the new node
in front. -/
theorem q_insert_head_linked (h : Heap) (q : queue_t) (as : List Nat) (s : Str) (a : Nat)
    (hl : Linked h q as) (ht : as ≠ [] → q.tail = as.getLast?) (hfree : h a = none) :
    ∃ h' q', q_insert_head h (some q) s (some a) true = some (true, h', some q') ∧
      Linked h' q' (a :: as) ∧ q'.tail = (a :: as).getLast? ∧ q'.head = some a ∧
      h' = h.write a { value := cstr s ++ [0], next := q.head } := by
  have hna : a ∉ as := fresh_not_mem hl.1 hfree
  refine ⟨_, _, q_insert_head_ok h q s a, ⟨⟨rfl, _, write_same h a _, ?_⟩, ?_⟩, ?_, rfl, rfl⟩
  · exact seg_frame (fun b hb => write_other h _ (fun hba => hna (hba ▸ hb))) hl.1
  · simp only [List.length_cons]
    have := hl.2
    push_cast
    omega
  · cases as with
    | nil =>
      have h0 : q.size = 0 := by simpa using hl.2.symm
      simp [h0]
    | cons b as =>
      have h0 : q.size ≠ 0 := by
        have := hl.2
        simp only [List.length_cons] at this
        omega
      simp only [h0, ↓reduceIte]
      rw [ht (by simp), List.getLast?_cons_cons]

/-- A successful `q_insert_tail` on a well-formed queue: the chain gains the new
node at the end. -/
theorem q_insert_tail_linked (h : Heap) (q : queue_t) (as : List Nat) (s : Str) (a : Nat)
    (hl : Linked h q as) (ht : as ≠ [] → q.tail = as.getLast?) (hfree : h a = none) :
    ∃ h' q', q_insert_tail h (some q) s (some a) true = some (true, h', some q') ∧
      Linked h' q' (as ++ [a]) ∧ q'.tail = some a ∧ q'.size = q.size + 1 ∧
      h' a = some { value := cstr s ++ [0], next := none } ∧
      (∀ b, (h' b).map (fun e => e.value) =
        if b = a then some (cstr s ++ [0]) else (h b).map (fun e => e.value)) := by
  have hna : a ∉ as := fresh_not_mem hl.1 hfree
  by_cases hnil : as = []
  · subst hnil
    have h0 : q.size = 0 := by simpa using hl.2.symm
    have hhead : q.head = none := hl.1
    refine ⟨h.write a { value := cstr s ++ [0], next := none },
      { head := some a, tail := some a, size := q.size + 1 }, ?_, ⟨⟨rfl, _, write_same h a _, rfl⟩,
        by simp [h0]⟩, rfl, rfl, write_same h a _, ?_⟩
    · simp [q_insert_tail, strncpy_alloc, write_write, h0]
    · intro b
      by_cases hb : b = a <;> simp [Heap.write, hb]
  · have hpos : 0 < as.length := List.length_pos.mpr hnil
    have h0 : q.size ≠ 0 := by have := hl.2; omega
    have htail := ht hnil
    rw [List.getLast?_eq_getLast _ hnil] at htail
    obtain ⟨e, he⟩ := seg_alloc hl.1 (as.getLast hnil) (List.getLast_mem hnil)
    have hta : as.getLast hnil ≠ a := fun hx => hna (hx ▸ List.getLast_mem hnil)
    have hnd := chain_nodup hl.1
    have hlast : as.getLast hnil ∉ as.dropLast := by
      have hnd2 : (as.dropLast ++ [as.getLast hnil]).Nodup := by
        rw [List.dropLast_append_getLast]; exact hnd
      intro hmem
      exact (List.nodup_append.mp hnd2).2.2 hmem (List.mem_singleton_self _)
    have he1 : (h.write a { value := cstr s ++ [0], next := none }) (as.getLast hnil) = some e := by
      rw [write_other h _ hta]; exact he
    refine ⟨(h.write a { value := cstr s ++ [0], next := none }).write (as.getLast hnil)
        { e with next := some a },
      { head := q.head, tail := some a, size := q.size + 1 }, ?_, ⟨?_, ?_⟩, rfl, rfl, ?_, ?_⟩
    · simp [q_insert_tail, strncpy_alloc, write_write, h0, htail, setNext_some he1]
    · have hc1 : Chain (h.write a { value := cstr s ++ [0], next := none }) q.head
          (as.dropLast ++ [as.getLast hnil]) := by
        rw [List.dropLast_append_getLast]
        exact seg_frame (fun b hb => write_other h _ (fun hba => hna (hba ▸ hb))) hl.1
      have hc2 := seg_set_last (e := e) hc1 hlast (some a)
      rw [List.dropLast_append_getLast] at hc2
      refine seg_append.mpr ⟨some a, hc2, rfl, { value := cstr s ++ [0], next := none }, ?_, rfl⟩
      rw [write_other _ _ (fun hx => hta hx.symm)]
      exact write_same h a _
    · simp only [List.length_append, List.length_singleton]
      have := hl.2
      push_cast
      omega
    · rw [write_other _ _ (fun hx => hta hx.symm)]
      exact write_same h a _
    · intro b
      by_cases hb : b = a
      · subst hb
        rw [write_other _ _ (fun hx => hta hx.symm)]
        simp [Heap.write]
      · by_cases hbt : b = as.getLast hnil
        · subst hbt
          simp [Heap.write, hb, he]
        · simp [Heap.write, hb, hbt]

theorem q_insert_head_wf {h h' : Heap} {q q' : queue_t} {s : Str} {newh : Option Nat}
    {valOk r : Bool} (hw : WellFormed h q) (hfree : ∀ a, newh = some a → h a = none)
    (hrun : q_insert_head h (some q) s newh valOk = some (r, h', some q')) :
    WellFormed h' q' := by
  obtain ⟨as, hl, ht⟩ := hw
  cases newh with
  | none =>
    simp only [q_insert_head, Option.some.injEq, Prod.mk.injEq] at hrun
    obtain ⟨_, hh, hq⟩ := hrun
    subst hh; subst hq
    exact ⟨as, hl, ht⟩
  | some a =>
    have hfa := hfree a rfl
    cases valOk with
    | false =>
      simp only [q_insert_head, Bool.false_eq_true, not_false_eq_true, ↓reduceIte,
        write_free_fresh hfa, Option.some.injEq, Prod.mk.injEq] at hrun
      obtain ⟨_, hh, hq⟩ := hrun
      subst hh; subst hq
      exact ⟨as, hl, ht⟩
    | true =>
      obtain ⟨h2, q2, hrun2, hl2, ht2, _, _⟩ := q_insert_head_linked h q as s a hl ht hfa
      rw [hrun2] at hrun
      simp only [Option.some.injEq, Prod.mk.injEq] at hrun
      obtain ⟨_, hh, hq⟩ := hrun
      subst hh; subst hq
      exact ⟨a :: as, hl2, fun _ => ht2⟩

theorem q_insert_tail_wf {h h' : Heap} {q q' : queue_t} {s : Str} {newh : Option Nat}
    {valOk r : Bool} (hw : WellFormed h q) (hfree : ∀ a, newh = some a → h a = none)
    (hrun : q_insert_tail h (some q) s newh valOk = some (r, h', some q')) :
    WellFormed h' q' := by
  obtain ⟨as, hl, ht⟩ := hw
  cases newh with
  | none =>
    simp only [q_insert_tail, Option.some.injEq, Prod.mk.injEq] at hrun
    obtain ⟨_, hh, hq⟩ := hrun
    subst hh; subst hq
    exact ⟨as, hl, ht⟩
  | some a =>
    have hfa := hfree a rfl
    cases valOk with
    | false =>
      simp only [q_insert_tail, Bool.false_eq_true, not_false_eq_true, ↓reduceIte,
        write_free_fresh hfa, Option.some.injEq, Prod.mk.injEq] at hrun
      obtain ⟨_, hh, hq⟩ := hrun
      subst hh; subst hq
      exact ⟨as, hl, ht⟩
    | true =>
      obtain ⟨h2, q2, hrun2, hl2, ht2, _, _⟩ := q_insert_tail_linked h q as s a hl ht hfa
      rw [hrun2] at hrun
      simp only [Option.some.injEq, Prod.mk.injEq] at hrun
      obtain ⟨_, hh, hq⟩ := hrun
      subst hh; subst hq
      exact ⟨as ++ [a], hl2, fun _ => by rw [ht2]; simp⟩

/-- The result of a `q_remove_head` that returns on a queue of non-zero size. -/
theorem q_remove_head_result {h h' : Heap} {q : queue_t} {q' : Option queue_t}
    {sp sp' : Option Str} {bufsize a : Nat} {e : list_ele_t} {r : Bool} (hne : q.size ≠ 0)
    (hhead : q.head = some a) (he : h a = some e)
    (hrun : q_remove_head h (some q) sp bufsize = some (r, h', q', sp')) :
    r = true ∧ h' = h.free a ∧
      q' = some { head := e.next, tail := q.tail, size := q.size - 1 } := by
  simp only [q_remove_head, q_size, hne, ↓reduceIte, hhead, getValue, getNext, he,
    Option.map_some', Option.bind_eq_bind, Option.some_bind] at hrun
  cases sp with
  | none =>
    simp only [Option.some_bind, Option.some.injEq, Prod.mk.injEq] at hrun
    exact ⟨hrun.1.symm, hrun.2.1.symm, hrun.2.2.1.symm⟩
  | some buf =>
    simp only [Option.bind_eq_some, Option.some.injEq, Prod.mk.injEq, Option.some_bind] at hrun
    obtain ⟨_, _, _, _, hr, hh, hq, _⟩ := hrun
    exact ⟨hr.symm, hh.symm, hq.symm⟩

theorem q_remove_head_wf {h h' : Heap} {q q' : queue_t} {sp sp' : Option Str} {bufsize : Nat}
    {r : Bool} (hw : WellFormed h q)
    (hrun : q_remove_head h (some q) sp bufsize = some (r, h', some q', sp')) :
    WellFormed h' q' := by
  obtain ⟨as, hl, ht⟩ := hw
  cases as with
  | nil =>
    have h0 : q.size = 0 := by simpa using hl.2.symm
    simp only [q_remove_head, q_size, h0, ↓reduceIte, Option.some.injEq, Prod.mk.injEq] at hrun
    obtain ⟨_, hh, hq, _⟩ := hrun
    subst hh; subst hq
    exact ⟨[], hl, ht⟩
  | cons a rest =>
    have hnd := chain_nodup hl.1
    have har : a ∉ rest := (List.nodup_cons.mp hnd).1
    have hsz := hl.2
    simp only [List.length_cons] at hsz
    obtain ⟨hhead, e, he, hrest⟩ := hl.1
    obtain ⟨_, hh, hq⟩ := q_remove_head_result (by omega) hhead he hrun
    have hq2 := Option.some.inj hq
    subst hh; subst hq2
    refine ⟨rest, ⟨?_, ?_⟩, ?_⟩
    · refine seg_frame (fun b hb => ?_) hrest
      have hba : b ≠ a := fun hx => har (hx ▸ hb)
      simp [Heap.free, hba]
    · show (rest.length : Int) = q.size - 1
      push_cast at hsz
      omega
    · intro hne
      show q.tail = rest.getLast?
      rw [ht (by simp)]
      obtain ⟨b, l, hbl⟩ := List.exists_cons_of_ne_nil hne
      rw [hbl, List.getLast?_cons_cons]

theorem q_reverse_wf {h h' : Heap} {q q' : queue_t} {fuel : Nat} (hw : WellFormed h q)
    (hrun : q_reverse fuel h (some q) = some (h', some q')) : WellFormed h' q' := by
  obtain ⟨as, hl, ht⟩ := hw
  obtain ⟨h2, q2, hrun2, hl2, _, _, _, hends, hnil⟩ :=
    q_reverse_linked (fuel + as.length) h q as hl (by omega)
  rw [q_reverse_mono_add as.length fuel h (some q) _ hrun] at hrun2
  simp only [Option.some.injEq, Prod.mk.injEq] at hrun2
  obtain ⟨hh, hq⟩ := hrun2
  subst hh; subst hq
  refine ⟨as.reverse, hl2, fun hne => ?_⟩
  have hne2 : as ≠ [] := by simpa using hne
  rw [(hends hne2).1, seg_head hl.1, List.getLast?_reverse]

theorem q_sort_wf {h h' : Heap} {q q' : queue_t} {fuel : Nat} (hw : WellFormed h q)
    (hrun : q_sort fuel h (some q) = some (h', some q')) : WellFormed h' q' := by
  obtain ⟨as, hl, ht⟩ := hw
  obtain ⟨h2, q2, hrun2, hl2, _, _, _, hends, hnil⟩ :=
    q_sort_linked (fuel + as.length) h q as hl (by omega)
  rw [q_sort_mono_add as.length fuel h (some q) _ hrun] at hrun2
  simp only [Option.some.injEq, Prod.mk.injEq] at hrun2
  obtain ⟨hh, hq⟩ := hrun2
  subst hh; subst hq
  refine ⟨_, hl2, fun hne => ?_⟩
  have hne2 : as ≠ [] := by
    intro hx; subst hx
    exact hne (msortL_nil _ _)
  exact hends hne2

/-- Every reachable state is well formed. -/
theorem reachable_wf {h : Heap} {q : queue_t} (hr : Reachable h q) : WellFormed h q := by
  induction hr with
  | new h q hnew =>
    simp only [q_new, ↓reduceIte, Option.some.injEq] at hnew
    subst hnew
    exact ⟨[], ⟨rfl, rfl⟩, fun hne => absurd rfl hne⟩
  | insert_head s newh valOk r h' q' _ hfree hrun ih => exact q_insert_head_wf ih hfree hrun
  | insert_tail s newh valOk r h' q' _ hfree hrun ih => exact q_insert_tail_wf ih hfree hrun
  | remove_head sp bufsize r h' q' sp' _ hrun ih => exact q_remove_head_wf ih hrun
  | reverse fuel h' q' _ hrun ih => exact q_reverse_wf ih hrun
  | sort fuel h' q' _ hrun ih => exact q_sort_wf ih hrun

theorem chain_last_next {h : Heap} {as : List Nat} {p : Option Nat} {t : Nat}
    (hc : Chain h p as) (hlast : as.getLast? = some t) : ∃ e, h t = some e ∧ e.next = none := by
  have hne : as ≠ [] := by
    intro hx; subst hx; simp at hlast
  rw [List.getLast?_eq_getLast _ hne] at hlast
  have ht : as.getLast hne = t := Option.some.inj hlast
  have hc2 : Seg h p (as.dropLast ++ [t]) none := by
    rw [← ht, List.dropLast_append_getLast]; exact hc
  obtain ⟨m, _, _, e, he, hnext⟩ := seg_append.mp hc2
  exact ⟨e, he, hnext⟩

/-- The example state is reachable: three insertions at the head. -/
theorem exState_reachable : Reachable exHeap exQueue :=
  Reachable.insert_head [99] (some 3) true true exHeap exQueue
    (Reachable.insert_head [98] (some 1) true true
      ((emptyHeap.write 2 { value := [97, 0], next := none }).write 1
        { value := [98, 0], next := some 2 })
      { head := some 1, tail := some 2, size := 2 }
      (Reachable.insert_head [97] (some 2) true true
        (emptyHeap.write 2 { value := [97, 0], next := none })
        { head := some 2, tail := some 2, size := 1 }
        (Reachable.new emptyHeap { head := none, tail := none, size := 0 } rfl)
        (fun _ _ => rfl) (q_insert_head_ok emptyHeap { head := none, tail := none, size := 0 } [97] 2))
      (fun a ha => by cases ha; rfl)
      (q_insert_head_ok (emptyHeap.write 2 { value := [97, 0], next := none })
        { head := some 2, tail := some 2, size := 1 } [98] 1))
    (fun a ha => by cases ha; rfl)
    (q_insert_head_ok ((emptyHeap.write 2 { value := [97, 0], next := none }).write 1
        { value := [98, 0], next := some 2 }) { head := some 1, tail := some 2, size := 2 } [99] 3)

/-! ## Invariants of the reachable states -/

/-- C10. In every state reachable from `q_new` by calls of `q_insert_head`,
`q_insert_tail`, `q_remove_head`, `q_reverse` and `q_sort`, if the size is positive
then the chain from `head` visits exactly `size` nodes, all different, and ends
in `NULL`, and `tail` is its last node, whose next link is `NULL`. -/
theorem reachable_chain (h : Heap) (q : queue_t) (hr : Reachable h q) (hpos : 0 < q.size) :
    ∃ as t e, Chain h q.head as ∧ as.Nodup ∧ (as.length : Int) = q.size ∧
      q.tail = some t ∧ as.getLast? = some t ∧ h t = some e ∧ e.next = none := by
  obtain ⟨as, hl, ht⟩ := reachable_wf hr
  have hne : as ≠ [] := by
    intro hx; subst hx
    have := hl.2
    simp at this; omega
  have hlast : as.getLast? = some (as.getLast hne) := List.getLast?_eq_getLast _ hne
  obtain ⟨e, he, hnext⟩ := chain_last_next hl.1 hlast
  exact ⟨as, as.getLast hne, e, hl.1, chain_nodup hl.1, hl.2, by rw [ht hne, hlast], hlast, he,
    hnext⟩

theorem reachable_chain_witness :
    Reachable exHeap exQueue ∧ 0 < exQueue.size ∧
    ∃ as t e, Chain exHeap exQueue.head as ∧ as.Nodup ∧ (as.length : Int) = exQueue.size ∧
      exQueue.tail = some t ∧ as.getLast? = some t ∧ exHeap t = some e ∧ e.next = none :=
  ⟨exState_reachable, by decide, reachable_chain exHeap exQueue exState_reachable (by decide)⟩

/-! ## Insertion, removal: the sequence held -/

theorem strings_eq (h : Heap) (q : queue_t) : strings h q = (contents h q).map cstr := rfl

/-- C11. For every present well-formed queue holding the sequence `L` and every
string `s`, a successful `q_insert_tail` (the node is allocated at a free
address) returns true and makes the sequence read head to tail exactly
`L ++ [s]`: the chain gains the new node at its end, the earlier nodes keep
their values and order.  The tail pointer is only assumed right when `L` is not
empty, so an empty queue with a stale tail is covered. -/
theorem q_insert_tail_appends (h : Heap) (q : queue_t) (as : List Nat) (s : Str) (a : Nat)
    (hl : Linked h q as) (ht : as ≠ [] → q.tail = as.getLast?) (hfree : h a = none) :
    ∃ h' q', q_insert_tail h (some q) s (some a) true = some (true, h', some q') ∧
      Linked h' q' (as ++ [a]) ∧ q'.tail = some a ∧
      contents h' q' = contents h q ++ [cstr s ++ [0]] ∧
      strings h' q' = strings h q ++ [cstr s] := by
  obtain ⟨h', q', hrun, hl', htl, _, _, hvals⟩ := q_insert_tail_linked h q as s a hl ht hfree
  have hna : a ∉ as := fresh_not_mem hl.1 hfree
  have hc : contents h' q' = contents h q ++ [cstr s ++ [0]] := by
    rw [contents_linked hl', contents_linked hl, List.map_append]
    congr 1
    · apply List.map_congr_left
      intro b hb
      have hba : b ≠ a := fun hx => hna (hx ▸ hb)
      have := hvals b
      rw [if_neg hba] at this
      unfold valOf
      cases h1 : h b <;> cases h2 : h' b <;> simp_all
    · have := hvals a
      simp only [↓reduceIte] at this
      unfold valOf
      cases h2 : h' a <;> simp_all
  refine ⟨h', q', hrun, hl', htl, hc, ?_⟩
  rw [strings_eq, hc, List.map_append, strings_eq]
  simp [cstr_block]

theorem q_insert_tail_appends_witness :
    ∃ h' q', q_insert_tail exHeap (some exQueue) [100] (some 7) true = some (true, h', some q') ∧
      Linked h' q' ([3, 1, 2] ++ [7]) ∧ q'.tail = some 7 ∧
      contents h' q' = contents exHeap exQueue ++ [cstr [100] ++ [0]] ∧
      strings h' q' = strings exHeap exQueue ++ [cstr [100]] :=
  q_insert_tail_appends exHeap exQueue [3, 1, 2] [100] 7
    ⟨⟨rfl, _, rfl, rfl, _, rfl, rfl, _, rfl, rfl⟩, rfl⟩ (fun _ => rfl) rfl

/-- C12. For every present queue whose chain has exactly `size` nodes, holding
the sequence `L`, and every string `s`, a successful `q_insert_head` (the node is
allocated at a free address) returns true and makes the sequence read head to
tail exactly `s :: L`; `head` is the new node, and `tail` is the new node when
the queue was empty and is not changed otherwise. -/
theorem q_insert_head_prepends (h : Heap) (q : queue_t) (as : List Nat) (s : Str) (a : Nat)
    (hl : Linked h q as) (hfree : h a = none) :
    ∃ h' q', q_insert_head h (some q) s (some a) true = some (true, h', some q') ∧
      Linked h' q' (a :: as) ∧ q'.head = some a ∧
      (q.size = 0 → q'.tail = some a) ∧ (q.size ≠ 0 → q'.tail = q.tail) ∧
      contents h' q' = (cstr s ++ [0]) :: contents h q ∧
      strings h' q' = cstr s :: strings h q := by
  have hna : a ∉ as := fresh_not_mem hl.1 hfree
  have hl' : Linked (h.write a { value := cstr s ++ [0], next := q.head })
      { head := some a, tail := if q.size = 0 then some a else q.tail, size := q.size + 1 }
      (a :: as) := by
    refine ⟨⟨rfl, _, write_same h a _, ?_⟩, ?_⟩
    · exact seg_frame (fun b hb => write_other h _ (fun hba => hna (hba ▸ hb))) hl.1
    · simp only [List.length_cons]
      have := hl.2
      push_cast
      omega
  have hc : contents (h.write a { value := cstr s ++ [0], next := q.head })
      { head := some a, tail := if q.size = 0 then some a else q.tail, size := q.size + 1 } =
      (cstr s ++ [0]) :: contents h q := by
    rw [contents_linked hl', contents_linked hl, List.map_cons]
    congr 1
    · simp [valOf, Heap.write]
    · apply List.map_congr_left
      intro b hb
      have hba : b ≠ a := fun hx => hna (hx ▸ hb)
      simp [valOf, Heap.write, hba]
  refine ⟨_, _, q_insert_head_ok h q s a, hl', rfl, fun h0 => by simp [h0],
    fun h0 => by simp [h0], hc, ?_⟩
  rw [strings_eq, hc, List.map_cons, cstr_block, strings_eq]

theorem q_insert_head_prepends_witness :
    ∃ h' q', q_insert_head exHeap (some exQueue) [100] (some 7) true = some (true, h', some q') ∧
      Linked h' q' (7 :: [3, 1, 2]) ∧ q'.head = some 7 ∧
      (exQueue.size = 0 → q'.tail = some 7) ∧ (exQueue.size ≠ 0 → q'.tail = exQueue.tail) ∧
      contents h' q' = (cstr [100] ++ [0]) :: contents exHeap exQueue ∧
      strings h' q' = cstr [100] :: strings exHeap exQueue :=
  q_insert_head_prepends exHeap exQueue [3, 1, 2] [100] 7
    ⟨⟨rfl, _, rfl, rfl, _, rfl, rfl, _, rfl, rfl⟩, rfl⟩ rfl

/-- A `q_remove_head` on a queue of non-zero size with a usable buffer returns
true: the head node is released and `head` moves to its successor. -/
theorem q_remove_head_runs {h : Heap} {q : queue_t} {sp : Option Str} {bufsize a : Nat}
    {e : list_ele_t} (hne : q.size ≠ 0) (hhead : q.head = some a) (he : h a = some e)
    (hb : BufferOk sp bufsize) :
    ∃ sp', q_remove_head h (some q) sp bufsize =
      some (true, h.free a, some { head := e.next, tail := q.tail, size := q.size - 1 }, sp') := by
  cases sp with
  | none =>
    exact ⟨none, by simp [q_remove_head, q_size, hne, hhead, getNext, he]⟩
  | some buf =>
    obtain ⟨hC, hcap, h64⟩ := hb
    have hcopy := copy_out buf e.value bufsize hC hcap h64
    refine ⟨some ((cstr e.value).take (bufsize - 1) ++
      List.replicate (bufsize - 1 - strlen e.value + 1) 0 ++ buf.drop bufsize), ?_⟩
    simp only [q_remove_head, q_size, hne, ↓reduceIte, hhead, getValue, he, Option.map_some',
      Option.bind_eq_bind, Option.some_bind, getNext]
    simp only [Option.bind_eq_bind] at hcopy
    cases hc1 : strncpy buf e.value bufsize with
    | none => simp [hc1] at hcopy
    | some b1 =>
      simp only [hc1, Option.some_bind] at hcopy ⊢
      rw [hcopy]
      rfl

/-- C13. For every queue whose chain has exactly `size` nodes, the first one
holding `v` and the others the sequence `L`, `q_remove_head` (with no buffer or a
usable one) returns true, releases exactly the first node, so that the sequence
read head to tail becomes `L`, and decrements `size` by exactly 1; the other
nodes keep their values and order. -/
theorem q_remove_head_removes (h : Heap) (q : queue_t) (a : Nat) (rest : List Nat)
    (sp : Option Str) (bufsize : Nat) (hl : Linked h q (a :: rest)) (hb : BufferOk sp bufsize) :
    ∃ h' q' sp', q_remove_head h (some q) sp bufsize = some (true, h', some q', sp') ∧
      h' = h.free a ∧ Linked h' q' rest ∧ q'.size = q.size - 1 ∧
      contents h q = valOf h a :: contents h' q' ∧ rest.map (valOf h') = rest.map (valOf h) := by
  have hnd := chain_nodup hl.1
  have har : a ∉ rest := (List.nodup_cons.mp hnd).1
  have hsz := hl.2
  simp only [List.length_cons] at hsz
  obtain ⟨hhead, e, he, hrest⟩ := hl.1
  obtain ⟨sp', hrun⟩ := @q_remove_head_runs h q sp bufsize a e (by omega) hhead he hb
  have hl' : Linked (h.free a) { head := e.next, tail := q.tail, size := q.size - 1 } rest := by
    refine ⟨seg_frame (fun b hb => ?_) hrest, ?_⟩
    · have hba : b ≠ a := fun hx => har (hx ▸ hb)
      simp [Heap.free, hba]
    · show (rest.length : Int) = q.size - 1
      push_cast at hsz
      omega
  have hvals : rest.map (valOf (h.free a)) = rest.map (valOf h) := by
    apply List.map_congr_left
    intro b hb
    have hba : b ≠ a := fun hx => har (hx ▸ hb)
    simp [valOf, Heap.free, hba]
  refine ⟨_, _, sp', hrun, rfl, hl', rfl, ?_, hvals⟩
  rw [contents_linked hl', contents_linked hl, List.map_cons, hvals]

theorem q_remove_head_removes_witness :
    ∃ h' q' sp', q_remove_head exHeap (some exQueue) (some [9, 9, 9]) 3 =
        some (true, h', some q', sp') ∧
      h' = exHeap.free 3 ∧ Linked h' q' [1, 2] ∧ q'.size = exQueue.size - 1 ∧
      contents exHeap exQueue = valOf exHeap 3 :: contents h' q' ∧
      [1, 2].map (valOf h') = [1, 2].map (valOf exHeap) :=
  q_remove_head_removes exHeap exQueue 3 [1, 2] (some [9, 9, 9]) 3
    ⟨⟨rfl, _, rfl, rfl, _, rfl, rfl, _, rfl, rfl⟩, rfl⟩ ⟨by decide, by decide, by decide⟩

/-- C14. When insertion cannot obtain storage (`malloc` returns `NULL` for the
node, or returns a free address for the node and `NULL` for the value block),
`q_insert_head` and `q_insert_tail` return false and leave the store and the
queue record (head, tail, size) exactly as they were. -/
theorem insert_alloc_failure (h : Heap) (q : Option queue_t) (s : Str) (newh : Option Nat)
    (valOk : Bool) (hfree : ∀ a, newh = some a → h a = none)
    (hfail : newh = none ∨ valOk = false) :
    q_insert_head h q s newh valOk = some (false, h, q) ∧
    q_insert_tail h q s newh valOk = some (false, h, q) := by
  cases q with
  | none => exact ⟨rfl, rfl⟩
  | some q0 =>
    cases newh with
    | none => exact ⟨rfl, rfl⟩
    | some a =>
      have hv : valOk = false := by
        rcases hfail with h1 | h1
        · exact absurd h1 (by simp)
        · exact h1
      subst hv
      have hfa := hfree a rfl
      constructor
      · simp [q_insert_head, write_free_fresh hfa]
      · simp [q_insert_tail, write_free_fresh hfa]

theorem insert_alloc_failure_witness :
    q_insert_head exHeap (some exQueue) [100] (some 7) false = some (false, exHeap, some exQueue) ∧
    q_insert_tail exHeap (some exQueue) [100] (some 7) false = some (false, exHeap, some exQueue) :=
  insert_alloc_failure exHeap (some exQueue) [100] (some 7) false
    (fun a ha => by cases ha; rfl) (Or.inr rfl)

/-! ## Absent and short queues -/

/-- C15. On an absent (`NULL`) queue every operation is benign: `q_insert_head`
and `q_insert_tail` return false for every string, `q_remove_head` returns false,
`q_size` returns 0, and `q_reverse`, `q_sort` and `q_free` return; none changes
the store or the buffer, and none reads a field (a read through `NULL` would
yield no result). -/
theorem null_queue_benign (h : Heap) (s : Str) (newh : Option Nat) (valOk : Bool)
    (sp : Option Str) (bufsize fuel : Nat) :
    q_insert_head h none s newh valOk = some (false, h, none) ∧
    q_insert_tail h none s newh valOk = some (false, h, none) ∧
    q_remove_head h none sp bufsize = some (false, h, none, sp) ∧
    q_size none = 0 ∧
    q_reverse fuel h none = some (h, none) ∧
    q_sort fuel h none = some (h, none) ∧
    q_free fuel h none = some h := by
  refine ⟨rfl, rfl, ?_, rfl, ?_, ?_, rfl⟩
  · simp [q_remove_head, q_size]
  · simp [q_reverse, q_size]
  · simp [q_sort, q_size]

theorem write_self {h : Heap} {a : Nat} {e : list_ele_t} (he : h a = some e) :
    h.write a e = h := by
  funext b
  by_cases hb : b = a
  · subst hb; simp [Heap.write, he]
  · simp [Heap.write, hb]

/-- C16. For every well-formed queue with 0 or 1 elements, `q_reverse` and
`q_sort` (with any fuel) return and leave the store and the queue record
unchanged: the same head, tail, size and element sequence. -/
theorem short_queue_unchanged (fuel1 fuel2 : Nat) (h : Heap) (q : queue_t) (as : List Nat)
    (hl : Linked h q as) (ht : as ≠ [] → q.tail = as.getLast?) (hshort : as.length ≤ 1) :
    q_reverse fuel1 h (some q) = some (h, some q) ∧
    q_sort fuel2 h (some q) = some (h, some q) := by
  match as, hl, ht, hshort with
  | [], hl, _, _ =>
    have h0 : q.size = 0 := by simpa using hl.2.symm
    exact ⟨by simp [q_reverse, q_size, h0], by simp [q_sort, q_size, h0]⟩
  | [a], hl, ht, _ =>
    obtain ⟨⟨hhead, e, he, hrest⟩, hsz⟩ := hl
    have hnext : e.next = none := hrest
    have hsz1 : q.size = 1 := by simpa using hsz.symm
    have htail : q.tail = some a := by simpa using ht (by simp)
    have he2 : ({ e with next := none } : list_ele_t) = e := by
      cases e; simp_all
    have hq : q = { head := some a, tail := some a, size := 1 } := by
      cases q; simp_all
    subst hq
    constructor
    · have hloop : reverse_loop fuel1 h (some a) none = some (h, some a) := by
        cases fuel1 <;> simp [reverse_loop]
      simp [q_reverse, q_size, getNext, he, hnext, setNext_some he, he2, write_self he, hloop]
    · have hms : merge_sort fuel2 h (some a) 0 0 = some (h, some a) := by
        cases fuel2 <;> simp [merge_sort]
      simp [q_sort, q_size, hms, tail_walk]
  | _ :: _ :: _, _, _, hs => simp at hs

theorem short_queue_unchanged_witness :
    q_reverse 0 (emptyHeap.write 5 { value := [97, 0], next := none })
        (some { head := some 5, tail := some 5, size := 1 }) =
      some (emptyHeap.write 5 { value := [97, 0], next := none },
        some { head := some 5, tail := some 5, size := 1 }) ∧
    q_sort 0 (emptyHeap.write 5 { value := [97, 0], next := none })
        (some { head := some 5, tail := some 5, size := 1 }) =
      some (emptyHeap.write 5 { value := [97, 0], next := none },
        some { head := some 5, tail := some 5, size := 1 }) :=
  short_queue_unchanged 0 0 (emptyHeap.write 5 { value := [97, 0], next := none })
    { head := some 5, tail := some 5, size := 1 } [5] ⟨⟨rfl, _, rfl, rfl⟩, rfl⟩ (fun _ => rfl)
    (by decide)

/-! ## Stability of the sort -/

theorem fresh_after {h h' : Heap} {a b : Nat} {blk : Str}
    (hv : (h' b).map (fun e => e.value) =
      if b = a then some blk else (h b).map (fun e => e.value))
    (hne : b ≠ a) (hfree : h b = none) : h' b = none := by
  rw [if_neg hne, hfree] at hv
  simpa using hv

theorem valOf_after {h h' : Heap} {a b : Nat} {blk : Str}
    (hv : (h' b).map (fun e => e.value) =
      if b = a then some blk else (h b).map (fun e => e.value)) :
    valOf h' b = if b = a then blk else valOf h b := by
  unfold valOf
  by_cases hb : b = a
  · rw [if_pos hb] at hv ⊢
    cases h2 : h' b <;> simp_all
  · rw [if_neg hb] at hv ⊢
    cases h1 : h b <;> cases h2 : h' b <;> simp_all

theorem msortL_single {α : Type} (v : α → Str) (fuel : Nat) (a : α) :
    msortL v fuel [a] = [a] := by
  cases fuel <;> simp [msortL]

/-- A `q_remove_head` on a queue of non-zero size with a buffer of `C > 0` bytes:
the result, with the bytes left in the buffer. -/
theorem q_remove_head_copy {h : Heap} {q : queue_t} {buf : Str} {C a : Nat}
    {e : list_ele_t} (hne : q.size ≠ 0) (hhead : q.head = some a) (he : h a = some e)
    (hC : 0 < C) (hcap : C ≤ buf.length) (h64 : C < 2 ^ 64) :
    q_remove_head h (some q) (some buf) C =
      some (true, h.free a, some { head := e.next, tail := q.tail, size := q.size - 1 },
        some ((cstr e.value).take (C - 1) ++ List.replicate (C - 1 - strlen e.value + 1) 0 ++
          buf.drop C)) := by
  have hcopy := copy_out buf e.value C hC hcap h64
  simp only [q_remove_head, q_size, hne, ↓reduceIte, hhead, getValue, he, Option.map_some',
    Option.bind_eq_bind, Option.some_bind, getNext]
  simp only [Option.bind_eq_bind] at hcopy
  cases hc1 : strncpy buf e.value C with
  | none => simp [hc1] at hcopy
  | some b1 =>
    simp only [hc1, Option.some_bind] at hcopy ⊢
    rw [hcopy]
    rfl

/-- C17. Starting from `q_new`, with the three nodes allocated at any three
different free addresses: after `q_insert_tail` of "banana", `q_insert_tail` of
"apple" and `q_insert_head` of "cherry" the queue reads
`[cherry, banana, apple]` with size 3; `q_sort` then gives
`[apple, banana, cherry]`; `q_reverse` then gives `[cherry, banana, apple]`;
`q_remove_head` (with a buffer of more than 6 bytes) then returns true with
"cherry" in the buffer and leaves `[banana, apple]` with size 2. -/
theorem fruit_scenario (h0 : Heap) (a1 a2 a3 fuel1 fuel2 bufsize : Nat) (buf : Str)
    (hf1 : h0 a1 = none) (hf2 : h0 a2 = none) (hf3 : h0 a3 = none)
    (h12 : a1 ≠ a2) (h13 : a1 ≠ a3) (h23 : a2 ≠ a3)
    (hfuel1 : 2 ≤ fuel1) (hfuel2 : 2 ≤ fuel2)
    (hb : 6 < bufsize) (hcap : bufsize ≤ buf.length) (h64 : bufsize < 2 ^ 64) :
    ∃ q0 h1 q1 h2 q2 h3 q3 h4 q4 h5 q5 h6 q6 out,
      q_new true = some q0 ∧
      q_insert_tail h0 (some q0) (bytes "banana") (some a1) true = some (true, h1, some q1) ∧
      q_insert_tail h1 (some q1) (bytes "apple") (some a2) true = some (true, h2, some q2) ∧
      q_insert_head h2 (some q2) (bytes "cherry") (some a3) true = some (true, h3, some q3) ∧
      strings h3 q3 = [bytes "cherry", bytes "banana", bytes "apple"] ∧ q3.size = 3 ∧
      q_sort fuel1 h3 (some q3) = some (h4, some q4) ∧
      strings h4 q4 = [bytes "apple", bytes "banana", bytes "cherry"] ∧
      q_reverse fuel2 h4 (some q4) = some (h5, some q5) ∧
      strings h5 q5 = [bytes "cherry", bytes "banana", bytes "apple"] ∧
      q_remove_head h5 (some q5) (some buf) bufsize = some (true, h6, some q6, some out) ∧
      cstr out = bytes "cherry" ∧
      strings h6 q6 = [bytes "banana", bytes "apple"] ∧ q6.size = 2 := by
  have hcb : cstr (bytes "banana") = bytes "banana" := by decide
  have hca : cstr (bytes "apple") = bytes "apple" := by decide
  have hcc : cstr (bytes "cherry") = bytes "cherry" := by decide
  have hgt1 : cmp (bytes "cherry" ++ [0]) (bytes "banana" ++ [0]) > 0 := by decide
  have hgt2 : cmp (bytes "banana" ++ [0]) (bytes "apple" ++ [0]) > 0 := by decide
  have hlenc : (bytes "cherry").length = 6 := by decide
  -- the three insertions
  obtain ⟨h1, q1, hrun1, hl1, ht1, _, _, hv1⟩ := q_insert_tail_linked h0
    { head := none, tail := none, size := 0 } [] (bytes "banana") a1 ⟨rfl, rfl⟩
    (fun hne => absurd rfl hne) hf1
  have hl1' : Linked h1 q1 [a1] := by simpa using hl1
  have hf2' : h1 a2 = none := fresh_after (hv1 a2) (Ne.symm h12) hf2
  obtain ⟨h2, q2, hrun2, hl2, ht2, _, _, hv2⟩ := q_insert_tail_linked h1 q1 [a1]
    (bytes "apple") a2 hl1' (fun _ => by simpa using ht1) hf2'
  have hl2' : Linked h2 q2 [a1, a2] := by simpa using hl2
  have hf3' : h2 a3 = none :=
    fresh_after (hv2 a3) (Ne.symm h23) (fresh_after (hv1 a3) (Ne.symm h13) hf3)
  obtain ⟨h3, q3, hrun3, hl3, _, _, hh3⟩ := q_insert_head_linked h2 q2 [a1, a2]
    (bytes "cherry") a3 hl2' (fun _ => by simpa using ht2) hf3'
  -- the values of the three nodes
  have hva1_1 : valOf h1 a1 = bytes "banana" ++ [0] := by
    rw [valOf_after (hv1 a1), if_pos rfl, hcb]
  have hva1_2 : valOf h2 a1 = bytes "banana" ++ [0] := by
    rw [valOf_after (hv2 a1), if_neg h12, hva1_1]
  have hva2_2 : valOf h2 a2 = bytes "apple" ++ [0] := by
    rw [valOf_after (hv2 a2), if_pos rfl, hca]
  have hva1 : valOf h3 a1 = bytes "banana" ++ [0] := by
    rw [← hva1_2, hh3]; simp [valOf, Heap.write, h13]
  have hva2 : valOf h3 a2 = bytes "apple" ++ [0] := by
    rw [← hva2_2, hh3]; simp [valOf, Heap.write, h23]
  have hva3 : valOf h3 a3 = bytes "cherry" ++ [0] := by
    rw [hh3]; simp [valOf, Heap.write, hcc]
  have hsb : cstr (bytes "banana" ++ [0]) = bytes "banana" := by rw [← hcb, cstr_block]
  have hsa : cstr (bytes "apple" ++ [0]) = bytes "apple" := by rw [← hca, cstr_block]
  have hsc : cstr (bytes "cherry" ++ [0]) = bytes "cherry" := by rw [← hcc, cstr_block]
  have hsz3 : q3.size = 3 := by
    have := hl3.2
    simp only [List.length_cons, List.length_nil] at this
    omega
  -- the sort
  obtain ⟨h4, q4, hrun4, hl4, hsz4, hsv4, _, _, _⟩ := q_sort_linked fuel1 h3 q3 [a3, a1, a2] hl3
    (by simp only [List.length_cons, List.length_nil]; omega)
  have hms : msortL (valOf h3) fuel1 [a3, a1, a2] = [a2, a1, a3] := by
    obtain ⟨f, rfl⟩ : ∃ f, fuel1 = f + 2 := ⟨fuel1 - 2, by omega⟩
    simp [msortL, msortL_single, mergeL, hva1, hva2, hva3, hgt1, hgt2]
  rw [hms] at hl4
  have hv4 : valOf h4 = valOf h3 := sameVals_valOf hsv4
  -- the reversal
  obtain ⟨h5, q5, hrun5, hl5, hsz5, hsv5, _, _, _⟩ := q_reverse_linked fuel2 h4 q4 [a2, a1, a3] hl4
    (by simp only [List.length_cons, List.length_nil]; omega)
  have hl5' : Linked h5 q5 [a3, a1, a2] := by simpa using hl5
  have hv5 : valOf h5 = valOf h3 := by rw [sameVals_valOf hsv5, hv4]
  -- the removal
  obtain ⟨hhead, e, he, hrest⟩ := hl5'.1
  have hev : e.value = bytes "cherry" ++ [0] := by
    rw [← valOf_of_some he, hv5, hva3]
  have hsz5' : q5.size = 3 := by rw [hsz5, hsz4, hsz3]
  have hrun6 := @q_remove_head_copy h5 q5 buf bufsize a3 e (by omega) hhead he
    (by omega : 0 < bufsize) hcap h64
  have hl6 : Linked (h5.free a3) { head := e.next, tail := q5.tail, size := q5.size - 1 }
      [a1, a2] := by
    refine ⟨seg_frame (fun b hb => ?_) hrest, ?_⟩
    · have hba : b ≠ a3 := by
        intro hx; subst hx
        simp only [List.mem_cons, List.mem_singleton, List.not_mem_nil, or_false] at hb
        rcases hb with hb | hb
        · exact h13 hb.symm
        · exact h23 hb.symm
      simp [Heap.free, hba]
    · show (([a1, a2] : List Nat).length : Int) = q5.size - 1
      rw [hsz5']; rfl
  have hv6a1 : valOf (h5.free a3) a1 = valOf h3 a1 := by
    rw [← hv5]; simp [valOf, Heap.free, h13]
  have hv6a2 : valOf (h5.free a3) a2 = valOf h3 a2 := by
    rw [← hv5]; simp [valOf, Heap.free, h23]
  refine ⟨_, h1, q1, h2, q2, h3, q3, h4, q4, h5, q5, _, _, _, rfl, hrun1, hrun2, hrun3, ?_, hsz3,
    hrun4, ?_, hrun5, ?_, hrun6, ?_, ?_, ?_⟩
  · rw [strings_eq, contents_linked hl3]
    simp [hva1, hva2, hva3, hsa, hsb, hsc]
  · rw [strings_eq, contents_linked hl4, hv4]
    simp [hva1, hva2, hva3, hsa, hsb, hsc]
  · rw [strings_eq, contents_linked hl5', hv5]
    simp [hva1, hva2, hva3, hsa, hsb, hsc]
  · rw [cstr_copy_out, hev, hsc]
    apply List.take_of_length_le
    rw [hlenc]; omega
  · rw [strings_eq, contents_linked hl6]
    simp [hv6a1, hv6a2, hva1, hva2, hsa, hsb]
  · show q5.size - 1 = 2
    rw [hsz5']; rfl

theorem fruit_scenario_witness :
    ∃ q0 h1 q1 h2 q2 h3 q3 h4 q4 h5 q5 h6 q6 out,
      q_new true = some q0 ∧
      q_insert_tail emptyHeap (some q0) (bytes "banana") (some 1) true = some (true, h1, some q1) ∧
      q_insert_tail h1 (some q1) (bytes "apple") (some 2) true = some (true, h2, some q2) ∧
      q_insert_head h2 (some q2) (bytes "cherry") (some 3) true = some (true, h3, some q3) ∧
      strings h3 q3 = [bytes "cherry", bytes "banana", bytes "apple"] ∧ q3.size = 3 ∧
      q_sort 2 h3 (some q3) = some (h4, some q4) ∧
      strings h4 q4 = [bytes "apple", bytes "banana", bytes "cherry"] ∧
      q_reverse 2 h4 (some q4) = some (h5, some q5) ∧
      strings h5 q5 = [bytes "cherry", bytes "banana", bytes "apple"] ∧
      q_remove_head h5 (some q5) (some [9, 9, 9, 9, 9, 9, 9, 9]) 8 =
        some (true, h6, some q6, some out) ∧
      cstr out = bytes "cherry" ∧
      strings h6 q6 = [bytes "banana", bytes "apple"] ∧ q6.size = 2 :=
  fruit_scenario emptyHeap 1 2 3 2 2 8 [9, 9, 9, 9, 9, 9, 9, 9] rfl rfl rfl (by decide)
    (by decide) (by decide) (by decide) (by decide) (by decide) (by decide) (by decide)

end Queue
